import Mathlib

/-!
# FastTensor: a shallow embedding of the lazy tensor core

The definitions below follow `Tensor.tpp`, `lazyEval.tpp`, `lazyStat.tpp` and
`TensorOps.tpp`.

Modelling conventions.
* `std::vector<X>` is `List X`; `size_t` quantities (dimensions, strides, flat
  indices) are natural numbers, so index arithmetic is exact: wrap-around at
  `2 ^ 64` is not modelled, except for the element counts that `Ops::reshape`
  compares, which are computed modulo `2 ^ 64` as the code does.  Elements of
  the 32-bit `int` path are integers and the NEON addition wraps explicitly.
* A read `v[i]` whose index is not bounded by the surrounding loop is a partial
  read: reading past the end is undefined behaviour in C++ and is reported as
  `Outcome.undefined_read`.
* A C++ function that mutates an argument through a reference returns the final
  state; a `throw` reports the state that is left behind at that point.
* Counted `for` loops take the number of remaining iterations as their
  structural argument.
* The operand pointer of a queue entry has two models.  `BatchOp` carries the
  storage the pointer refers to, for operands that are objects other than the
  core.  `BatchOpPtr` carries an address into a heap of storages, the core being
  one of them, so that an operand may be the core itself and is read as the heap
  holds it at the moment of the read.
-/

set_option autoImplicit false

namespace FastTensor

/-! ## Outcomes of a call -/

/-- How a call on a state of type `S` ends. -/
inductive Outcome (S : Type) where
  /-- Normal return, with the final state. -/
  | done (s : S)
  /-- A `std::runtime_error` with message `msg` left the call; `s` is the state it leaves. -/
  | threw (msg : String) (s : S)
  /-- The call read a vector past its end (undefined behaviour). -/
  | undefined_read
  /-- The bounded model of an unbounded loop ran out of steps. -/
  | out_of_fuel
  deriving Repr, DecidableEq

/-! ## `Tensor.tpp` : strided storage -/

/-- The storage `struct Pv<T>`: flat data, shape and strides. -/
structure Pv (T : Type) where
  data : List T
  shape : List Nat
  strides : List Nat
  deriving Repr, DecidableEq

/-- The effect of `std::vector::resize(n, v)`: keep the first `n` elements, pad with `v`. -/
def vresize {α : Type} (xs : List α) (n : Nat) (v : α) : List α :=
  xs.take n ++ List.replicate (n - xs.length) v

/-- The loop of `Pv::computeStrides`, `for (int i = size - 2; i >= 0; i--)`; the
counter is `i + 1`. -/
def computeStridesLoop (shape : List Nat) : Nat → List Nat → List Nat
  | 0, st => st
  | i + 1, st =>
      computeStridesLoop shape i (st.set i (st.getD (i + 1) 0 * shape.getD (i + 1) 0))

/-- The method `Pv::computeStrides`: resize the stride vector to the rank (new
entries are 1, old entries are kept), then fill entries `rank - 2 .. 0`. -/
def Pv.computeStrides {T : Type} (p : Pv T) : Pv T :=
  { p with
    strides := computeStridesLoop p.shape (p.shape.length - 1)
      (vresize p.strides p.shape.length 1) }

/-- The method `Pv::size`: the running product `tot *= s` over the shape. -/
def Pv.size {T : Type} (p : Pv T) : Nat :=
  p.shape.foldl (fun tot s => tot * s) 1

/-- The constructor `Pv(shp, init)`. -/
def Pv.ofShape {T : Type} (shp : List Nat) (init : T) : Pv T :=
  let p : Pv T := Pv.computeStrides { data := [], shape := shp, strides := [] }
  { p with data := vresize p.data p.size init }

/-- The constructor `Pv(values)`. -/
def Pv.ofValues {T : Type} (values : List T) : Pv T :=
  Pv.computeStrides { data := values, shape := [values.length], strides := [] }

/-! ## `lazyEval.tpp` : broadcasting -/

/-- The text of the exception thrown by `broadcast_shapes`. -/
def broadcastError : String := "broadcast_shapes: incompatible shapes"

/-- The loop of `LazyEval::broadcast_shapes`; the first argument counts the
remaining iterations, `i` is the loop variable. -/
def broadcastLoop (a b : List Nat) (n : Nat) : Nat → Nat → List Nat → Except String (List Nat)
  | 0, _, result => .ok result
  | k + 1, i, result =>
      let dim_a := if i < n - a.length then 1 else a.getD (i - (n - a.length)) 0
      let dim_b := if i < n - b.length then 1 else b.getD (i - (n - b.length)) 0
      if dim_a = dim_b ∨ dim_a = 1 ∨ dim_b = 1 then
        broadcastLoop a b n k (i + 1) (result.set i (max dim_a dim_b))
      else
        .error broadcastError

/-- The function `LazyEval::broadcast_shapes`. -/
def broadcast_shapes (a b : List Nat) : Except String (List Nat) :=
  let n := max a.length b.length
  broadcastLoop a b n n 0 (List.replicate n 0)

/-- The shape `s` right-aligned in `n` dimensions, left-padded with 1s (the
wording of the broadcasting rule, not the code). -/
def padLeftOnes (n : Nat) (s : List Nat) : List Nat :=
  List.replicate (n - s.length) 1 ++ s

/-! ## `lazyEval.tpp` : the lazy element-wise engine -/

/-- The queue entry `LazyEval::BatchOp`.  The operand is held by pointer in the
source; here it is the storage the pointer refers to, which the engine only
reads.  An operand that is the core itself (aliasing) is outside this model;
`BatchOpPtr` below holds the operand by address and covers it. -/
structure BatchOp (T : Type) where
  func : T → T → T
  tensor : Pv T

/-- The engine `struct LazyEval<T, TensorType>` with `TensorType = Pv<T>`. -/
structure LazyEval (T : Type) where
  batch : List (BatchOp T)

/-- The method `LazyEval::add`. -/
def LazyEval.add {T : Type} (self : LazyEval T) (other : Pv T) (f : T → T → T) : LazyEval T :=
  { batch := self.batch ++ [{ func := f, tensor := other }] }

/-- Step 1 of `LazyEval::execute`: `for (auto& op : batch) target_shape =
broadcast_shapes(target_shape, op.tensor->shape)`. -/
def foldTarget {T : Type} : List Nat → List (BatchOp T) → Except String (List Nat)
  | target_shape, [] => .ok target_shape
  | target_shape, op :: rest =>
      match broadcast_shapes target_shape op.tensor.shape with
      | .ok t => foldTarget t rest
      | .error msg => .error msg

/-- The loop `for (int d = rank - 1; d >= 0; --d) { coord[d] = tmp % target_shape[d];
tmp /= target_shape[d]; }`; the counter is `d + 1`. -/
def decomposeLoop (target_shape : List Nat) : Nat → Nat → List Nat → List Nat
  | 0, _, coord => coord
  | d + 1, tmp, coord =>
      decomposeLoop target_shape d (tmp / target_shape.getD d 0)
        (coord.set d (tmp % target_shape.getD d 0))

/-- The loop `for (d = 0; d < core.shape.size(); ++d) if (core.shape[d] == 1)
src_coord[d + shift] = 0;`. -/
def zeroLoop (cshape : List Nat) (shift : Nat) : Nat → Nat → List Nat → List Nat
  | 0, _, src_coord => src_coord
  | k + 1, d, src_coord =>
      zeroLoop cshape shift k (d + 1)
        (if cshape.getD d 0 = 1 then src_coord.set (d + shift) 0 else src_coord)

/-- The loop `for (d = 0; d < core.shape.size(); ++d) si += (core.shape[d] == 1 ? 0 :
src_coord[d + shift]) * core.strides[d];`.  The stride vector is read partially. -/
def srcIndexLoop (cshape cstrides : List Nat) (shift : Nat) (src_coord : List Nat) :
    Nat → Nat → Nat → Option Nat
  | 0, _, si => some si
  | k + 1, d, si =>
      match cstrides[d]? with
      | none => none
      | some st =>
          srcIndexLoop cshape cstrides shift src_coord k (d + 1)
            (si + (if cshape.getD d 0 = 1 then 0 else src_coord.getD (d + shift) 0) * st)

/-- The loop over `idx` that fills `new_data`; the state is `(coord, new_data)`
because `coord` is declared outside the loop. -/
def fillLoop {T : Type} (core : Pv T) (target_shape : List Nat) :
    Nat → Nat → List Nat × List T → Option (List Nat × List T)
  | 0, _, s => some s
  | k + 1, idx, (coord, new_data) =>
      let coord := decomposeLoop target_shape target_shape.length idx coord
      let shift := target_shape.length - core.shape.length
      let src_coord := zeroLoop core.shape shift core.shape.length 0 coord
      match srcIndexLoop core.shape core.strides shift src_coord core.shape.length 0 0 with
      | none => none
      | some si =>
          match core.data[si]? with
          | none => none
          | some v => fillLoop core target_shape k (idx + 1) (coord, new_data.set idx v)

/-- The block of `LazyEval::execute` that broadcasts the core to `target_shape`
(the body of `if (core.shape != target_shape)`).  `execute` runs it with the
folded target shape, whose rank is at least the rank of the core, so `shift` is
not negative.  `none` is an out-of-range read. -/
def materialize {T : Type} [Inhabited T] (core : Pv T) (target_shape : List Nat) :
    Option (Pv T) :=
  let new_size := target_shape.foldl (fun acc s => acc * s) 1
  let new_data : List T := List.replicate new_size default
  let coord := List.replicate target_shape.length 0
  match fillLoop core target_shape new_size 0 (coord, new_data) with
  | none => none
  | some (_, new_data) =>
      some (Pv.computeStrides { data := new_data, shape := target_shape, strides := core.strides })

/-- The scalar loop `for (; i < end; i++) core.data[i] = op.func(core.data[i],
op.tensor->data[i]);` with `n` iterations left. -/
def scalarLoop {T : Type} (f : T → T → T) (operand : List T) :
    Nat → Nat → List T → Outcome (List T)
  | 0, _, data => .done data
  | n + 1, i, data =>
      match data[i]?, operand[i]? with
      | some x, some y => scalarLoop f operand n (i + 1) (data.set i (f x y))
      | _, _ => .undefined_read

/-- Four consecutive lanes starting at `i` (`vld1q`). -/
def load4 {T : Type} (v : List T) (i : Nat) : Option (T × T × T × T) :=
  match v[i]?, v[i + 1]?, v[i + 2]?, v[i + 3]? with
  | some x0, some x1, some x2, some x3 => some (x0, x1, x2, x3)
  | _, _, _, _ => none

/-- Store four lanes starting at `i` (`vst1q`). -/
def store4 {T : Type} (v : List T) (i : Nat) (r : T × T × T × T) : List T :=
  (((v.set i r.1).set (i + 1) r.2.1).set (i + 2) r.2.2.1).set (i + 3) r.2.2.2

/-- The NEON loop `for (; i + 4 <= end; i += 4)`, which runs `(end - start) / 4`
times: load four lanes of the core and of the operand, combine them with the
lane-wise instruction `vop` that the source hard-codes, store. -/
def simdLoop {T : Type} (vop : T → T → T) (operand : List T) :
    Nat → Nat → List T → Outcome (List T)
  | 0, _, data => .done data
  | n + 1, i, data =>
      match load4 data i, load4 operand i with
      | some a, some b =>
          simdLoop vop operand n (i + 4)
            (store4 data i (vop a.1 b.1, vop a.2.1 b.2.1, vop a.2.2.1 b.2.2.1, vop a.2.2.2 b.2.2.2))
      | _, _ => .undefined_read

/-- One queued operation on the chunk `[start, stop)`.  `neon` selects the branch
of `if constexpr`: `some vop` for `float` and `int` (vector loop with the
hard-coded `vop`, then the scalar tail), `none` for every other element type. -/
def applyOp {T : Type} (neon : Option (T → T → T)) (op : BatchOp T) (start stop : Nat)
    (data : List T) : Outcome (List T) :=
  match neon with
  | none => scalarLoop op.func op.tensor.data (stop - start) start data
  | some vop =>
      let nvec := (stop - start) / 4
      match simdLoop vop op.tensor.data nvec start data with
      | .done data1 =>
          scalarLoop op.func op.tensor.data (stop - (start + 4 * nvec)) (start + 4 * nvec) data1
      | other => other

/-- The loop `for (auto& op : this->batch)` inside a claimed chunk. -/
def processChunk {T : Type} (neon : Option (T → T → T)) :
    List (BatchOp T) → Nat → Nat → List T → Outcome (List T)
  | [], _, _, data => .done data
  | op :: rest, start, stop, data =>
      match applyOp neon op start stop data with
      | .done data1 => processChunk neon rest start stop data1
      | other => other

/-- The lambda `worker`: claim chunks with `next_idx.fetch_add(chunk)` until the
cursor passes `N`.  The state is `(next_idx, core.data)`; `fuel` bounds the
number of iterations of `while (true)`. -/
def worker {T : Type} (neon : Option (T → T → T)) (batch : List (BatchOp T)) (N chunk : Nat) :
    Nat → Nat × List T → Outcome (Nat × List T)
  | 0, _ => .out_of_fuel
  | fuel + 1, (next_idx, data) =>
      let start := next_idx
      if start ≥ N then .done (next_idx + chunk, data)
      else
        match processChunk neon batch start (min (start + chunk) N) data with
        | .done data1 => worker neon batch N chunk fuel (next_idx + chunk, data1)
        | .threw msg _ => .threw msg (next_idx + chunk, data)
        | .undefined_read => .undefined_read
        | .out_of_fuel => .out_of_fuel

/-- The launched threads, run one after the other (chunks are disjoint index
ranges, so the threads do not interfere). -/
def runThreads {T : Type} (neon : Option (T → T → T)) (batch : List (BatchOp T)) (N chunk : Nat) :
    Nat → Nat × List T → Outcome (Nat × List T)
  | 0, s => .done s
  | t + 1, s =>
      match worker neon batch N chunk (N + 1) s with
      | .done s1 => runThreads neon batch N chunk t s1
      | other => other

/-- The method `LazyEval::execute`, on the state `(core, engine)`.  `neon` is the
branch of `if constexpr` for the element type and `hc` is the value reported by
`std::thread::hardware_concurrency()`. -/
def LazyEval.execute {T : Type} [Inhabited T] (neon : Option (T → T → T)) (hc : Nat)
    (self : LazyEval T) (core : Pv T) : Outcome (Pv T × LazyEval T) :=
  if self.batch.isEmpty then .done (core, self)
  else
    match foldTarget core.shape self.batch with
    | .error msg => .threw msg (core, self)
    | .ok target_shape =>
        match (if core.shape ≠ target_shape then materialize core target_shape else some core) with
        | none => .undefined_read
        | some core1 =>
            let threads_hardware := if hc = 0 then 4 else hc
            let N := core1.data.length
            let min_chunk := 1024
            let chunk := max (N / threads_hardware) min_chunk
            let num_threads := (N + chunk - 1) / chunk
            match runThreads neon self.batch N chunk num_threads (0, core1.data) with
            | .done (_, data1) => .done ({ core1 with data := data1 }, { batch := [] })
            | .threw msg _ => .threw msg (core1, self)
            | .undefined_read => .undefined_read
            | .out_of_fuel => .out_of_fuel

/-- Wrap an integer into the range of a 32-bit signed `int`. -/
def wrap32 (x : Int) : Int := (x + 2147483648) % 4294967296 - 2147483648

/-- The lane-wise instruction `vaddq_s32`: 32-bit addition with wrap-around. -/
def vaddq_s32 (x y : Int) : Int := wrap32 (x + y)

/-! ## `lazyStat.tpp` : the lazy reduction engine -/

/-- The engine `struct LazyEvalStat<R, Pv<T>>`: a queue of reductions
`std::function<R(const Pv<T>&)>`.  A reduction is partial because its body may
read out of range (`none`). -/
structure LazyEvalStat (R T : Type) where
  batch : List (Pv T → Option R)

/-- The method `LazyEvalStat::add`. -/
def LazyEvalStat.add {R T : Type} (self : LazyEvalStat R T) (f : Pv T → Option R) :
    LazyEvalStat R T :=
  { batch := self.batch ++ [f] }

/-- The asynchronous tasks `results[i] = batch[i](core)`, completing in the
order given by the list of task indices. -/
def runTasks {R T : Type} (batch : List (Pv T → Option R)) (core : Pv T) :
    List Nat → List R → Outcome (List R)
  | [], results => .done results
  | i :: rest, results =>
      match batch[i]? with
      | none => .undefined_read
      | some f =>
          match f core with
          | none => .undefined_read
          | some v => runTasks batch core rest (results.set i v)

/-- The method `LazyEvalStat::execute`, returning the results and the engine.
`order` is the order in which the launched tasks complete, a permutation of
`0 .. batch.size() - 1` chosen by the scheduler. -/
def LazyEvalStat.execute {R T : Type} [Inhabited R] (self : LazyEvalStat R T) (core : Pv T)
    (clear_after : Bool) (order : List Nat) : Outcome (List R × LazyEvalStat R T) :=
  let results : List R := List.replicate self.batch.length default
  match runTasks self.batch core order results with
  | .done results => .done (results, if clear_after then { batch := [] } else self)
  | .threw msg _ => .threw msg ([], self)
  | .undefined_read => .undefined_read
  | .out_of_fuel => .out_of_fuel

/-! ## `TensorOps.tpp` : reductions and reshape -/

/-- The scan of `std::max_element` after the first element: `i` is the position
of the iterator, `largest` the position of the best element so far and `v` its
value; the best element is replaced only when `v < y`.  The element type is
linearly ordered by `operator<` (integers; not floating point with NaN). -/
def maxElementScan {T : Type} [LinearOrder T] : List T → Nat → Nat → T → Nat
  | [], _, largest, _ => largest
  | y :: ys, i, largest, v =>
      if v < y then maxElementScan ys (i + 1) i y else maxElementScan ys (i + 1) largest v

/-- The algorithm `std::max_element(begin, end)`, as the distance of the returned
iterator from `begin` (for an empty range it returns `end`, at distance 0). -/
def max_element {T : Type} [LinearOrder T] : List T → Nat
  | [] => 0
  | x :: xs => maxElementScan xs 1 0 x

/-- The scan of `std::min_element`: the best element is replaced only when `y < v`. -/
def minElementScan {T : Type} [LinearOrder T] : List T → Nat → Nat → T → Nat
  | [], _, smallest, _ => smallest
  | y :: ys, i, smallest, v =>
      if y < v then minElementScan ys (i + 1) i y else minElementScan ys (i + 1) smallest v

/-- The algorithm `std::min_element(begin, end)`, as a distance from `begin`. -/
def min_element {T : Type} [LinearOrder T] : List T → Nat
  | [] => 0
  | x :: xs => minElementScan xs 1 0 x

/-- The first result of a reduction batch, `lazy.execute(a)[0]`. -/
def firstResult {R T : Type} : Outcome (List R × LazyEvalStat R T) → Outcome R
  | .done (results, _) =>
      match results[0]? with
      | some v => .done v
      | none => .undefined_read
  | .threw _ _ => .undefined_read
  | .undefined_read => .undefined_read
  | .out_of_fuel => .out_of_fuel

/-- The reduction queued by `Ops::max`: `*std::max_element(...)`. -/
def maxReduction {T : Type} [LinearOrder T] (core : Pv T) : Option T :=
  core.data[max_element core.data]?

/-- The reduction queued by `Ops::min`: `*std::min_element(...)`. -/
def minReduction {T : Type} [LinearOrder T] (core : Pv T) : Option T :=
  core.data[min_element core.data]?

/-- The function `Ops::argmax`: one queued reduction, executed at once. -/
def Ops.argmax {T : Type} [LinearOrder T] (a : Pv T) : Outcome Nat :=
  let lazy : LazyEvalStat Nat T := { batch := [] }
  let lazy := lazy.add (fun core => some (max_element core.data))
  firstResult (lazy.execute a true [0])

/-- The function `Ops::argmin`. -/
def Ops.argmin {T : Type} [LinearOrder T] (a : Pv T) : Outcome Nat :=
  let lazy : LazyEvalStat Nat T := { batch := [] }
  let lazy := lazy.add (fun core => some (min_element core.data))
  firstResult (lazy.execute a true [0])

/-- The text of the exception thrown by both overloads of `Ops::reshape`. -/
def reshapeError : String := "Reshape failed: element count mismatch"

/-- The number of values of `size_t` (64 bits): products of `size_t` wrap modulo it. -/
def sizeModulus : Nat := 18446744073709551616

/-- The copying overload `Ops::reshape(const PvT&, nw_shp)`.  The two element
counts are the running products `nw_tlt *= d` and `old_tlt *= d` in `size_t`. -/
def Ops.reshape {T : Type} (a : Pv T) (nw_shp : List Nat) : Except String (Pv T) :=
  let nw_tlt := nw_shp.foldl (fun acc d => (acc * d) % sizeModulus) 1
  let old_tlt := a.shape.foldl (fun acc d => (acc * d) % sizeModulus) 1
  if nw_tlt ≠ old_tlt then .error reshapeError
  else
    let result : Pv T := { data := [], shape := [], strides := [] }
    let result := { result with data := a.data }
    let result := { result with shape := nw_shp }
    .ok result.computeStrides

/-- The in-place overload `Ops::reshape(PvT&, nw_shp)`, on the state `a`, with
the element counts computed in `size_t` as in the copying overload. -/
def Ops.reshapeInPlace {T : Type} (a : Pv T) (nw_shp : List Nat) : Outcome (Pv T) :=
  let nw_tlt := nw_shp.foldl (fun acc d => (acc * d) % sizeModulus) 1
  let old_tlt := a.shape.foldl (fun acc d => (acc * d) % sizeModulus) 1
  if nw_tlt ≠ old_tlt then .threw reshapeError a
  else
    let a := { a with shape := nw_shp }
    .done a.computeStrides

/-! ## Reference definitions taken from the wording of the specification -/

/-- The value a cell at flat position `i` must hold after the batch: the queued
functions folded from the left over the original value `x`, each with the
operand value at position `i`. -/
def cellFold {T : Type} [Inhabited T] (batch : List (BatchOp T)) (i : Nat) (x : T) : T :=
  batch.foldl (fun acc op => op.func acc (op.tensor.data.getD i default)) x

/-- The scalar reference for a whole batch on same-length buffers: each queued
function applied cell by cell, in queue order. -/
def scalarReference {T : Type} (batch : List (BatchOp T)) (data : List T) : List T :=
  batch.foldl (fun d op => List.zipWith op.func d op.tensor.data) data

/-- Row-major coordinate `d` of the flat index `idx` in `shape`: the index
divided by the product of the later dimensions, modulo dimension `d`. -/
def rowMajorCoord (shape : List Nat) (idx d : Nat) : Nat :=
  (idx / (shape.drop (d + 1)).prod) % shape.getD d 0

/-- The source index of the materialization rule: the target coordinates of
`idx`, right-aligned with the source shape (`shift = targetRank - sourceRank`),
with 0 on the source dimensions of size 1, flattened with the source strides. -/
def sourceIndex (cshape cstrides target : List Nat) (idx : Nat) : Nat :=
  ((List.range cshape.length).map (fun d =>
    (if cshape.getD d 0 = 1 then 0
      else rowMajorCoord target idx (d + (target.length - cshape.length))) *
        cstrides.getD d 0)).sum

/-- Row-major strides of a shape: entry `i` is the product of the later dimensions. -/
def rowMajorStrides (shape : List Nat) : List Nat :=
  (List.range shape.length).map (fun i => (shape.drop (i + 1)).prod)

/-! ## `Tensor.tpp` : coordinate to flat index -/

/-- The reduction queued by `LazyEvalStat::add_sum` for an integer element type
(the scalar fallback `for (auto v : data) result += v;`), in exact arithmetic. -/
def sumReduction (core : Pv Int) : Option Int :=
  some (core.data.foldl (fun result v => result + v) 0)

/-- The reduction queued by `Ops::len`: `static_cast<T>(core.data.size())`. -/
def lenReduction (core : Pv Int) : Option Int :=
  some (Int.ofNat core.data.length)

/-- The reduction queued by `Ops::mean`: the running sum divided by the element
count with the truncating division of C++; dividing by zero is undefined. -/
def meanReduction (core : Pv Int) : Option Int :=
  let s := core.data.foldl (fun s v => s + v) 0
  if Int.ofNat core.data.length = 0 then none
  else some (Int.tdiv s (Int.ofNat core.data.length))

/-- The function `Ops::sum`. -/
def Ops.sum (a : Pv Int) : Outcome Int :=
  let lazy : LazyEvalStat Int Int := { batch := [] }
  let lazy := lazy.add sumReduction
  firstResult (lazy.execute a true [0])

/-- The function `Ops::len`. -/
def Ops.len (a : Pv Int) : Outcome Int :=
  let lazy : LazyEvalStat Int Int := { batch := [] }
  let lazy := lazy.add lenReduction
  firstResult (lazy.execute a true [0])

/-- The function `Ops::mean`. -/
def Ops.mean (a : Pv Int) : Outcome Int :=
  let lazy : LazyEvalStat Int Int := { batch := [] }
  let lazy := lazy.add meanReduction
  firstResult (lazy.execute a true [0])

/-! ## `lazyEval.tpp` : chunk scheduling -/

/-- The static `threads_hardware` of `LazyEval::execute`: the reported hardware
concurrency, replaced by 4 when it is 0. -/
def threadsHardware (hc : Nat) : Nat := if hc = 0 then 4 else hc

/-- The value `chunk = std::max(N / threads_hardware, min_chunk)` with `min_chunk = 1024`. -/
def chunkSize (hc N : Nat) : Nat := max (N / threadsHardware hc) 1024

/-- The value `num_threads = (N + chunk - 1) / chunk`. -/
def numThreads (hc N : Nat) : Nat := (N + chunkSize hc N - 1) / chunkSize hc N

/-- The index ranges `[start, end)` claimed through `next_idx.fetch_add(chunk)`,
in claim order, starting with the cursor at `next_idx`: the claims stop at the
first `start >= N`.  `fuel` bounds the number of claims. -/
def claimedChunks (N chunk : Nat) : Nat → Nat → List (Nat × Nat)
  | 0, _ => []
  | fuel + 1, next_idx =>
      let start := next_idx
      if start ≥ N then []
      else (start, min (start + chunk) N) :: claimedChunks N chunk fuel (next_idx + chunk)

/-- Claimed chunks processed one after the other in the order of the list (the
order in which the threads happen to process them). -/
def runChunks {T : Type} (neon : Option (T → T → T)) (batch : List (BatchOp T)) :
    List (Nat × Nat) → List T → Outcome (List T)
  | [], data => .done data
  | c :: rest, data =>
      match processChunk neon batch c.1 c.2 data with
      | .done data1 => runChunks neon batch rest data1
      | other => other

/-! ## `lazyStat.tpp` : the thread pool as a transition system -/

/-- The state of `struct ThreadPool` under its mutex: the task queue (front
first, tasks named by numbers) and the stop flag, with the history needed to
state its guarantees: the workers that have returned, the tasks popped so far
and the tasks enqueued while `stop` was still false. -/
structure PoolState where
  tasks : List Nat
  stop : Bool
  exited : List Nat
  popped : List Nat
  early : List Nat
  deriving Repr, DecidableEq

/-- The events of the pool: `enqueue(f)`, one pass of worker `i` through its
critical section, and the critical section of the destructor. -/
inductive PoolEvent where
  | enqueue (task : Nat)
  | worker (i : Nat)
  | shutdown
  deriving Repr, DecidableEq

/-- The pool right after construction. -/
def PoolState.init : PoolState :=
  { tasks := [], stop := false, exited := [], popped := [], early := [] }

/-- The number of workers the constructor starts. -/
def poolThreads (n_threads : Nat) : Nat := if n_threads = 0 then 4 else n_threads

/-- One event on a pool of `n` workers; `none` when the event cannot happen (a
worker that has returned, or a worker blocked in `cv.wait` because the queue is
empty and `stop` is false).  A woken worker returns when `stop && tasks.empty()`
and pops the front task otherwise. -/
def PoolState.step (n : Nat) (s : PoolState) : PoolEvent → Option PoolState
  | .enqueue task =>
      some { s with tasks := s.tasks ++ [task],
                    early := if s.stop then s.early else s.early ++ [task] }
  | .worker i =>
      if i < n ∧ i ∉ s.exited then
        if s.stop = true ∨ s.tasks ≠ [] then
          if s.stop = true ∧ s.tasks = [] then some { s with exited := i :: s.exited }
          else
            match s.tasks with
            | [] => none
            | task :: rest => some { s with tasks := rest, popped := s.popped ++ [task] }
        else none
      else none
  | .shutdown => some { s with stop := true }

/-- A sequence of events from a state. -/
def PoolState.run (n : Nat) : List PoolEvent → PoolState → Option PoolState
  | [], s => some s
  | e :: rest, s =>
      match s.step n e with
      | some s1 => PoolState.run n rest s1
      | none => none

/-! ## Further reference definitions -/

/-- The storage invariant of the data model. -/
def Pv.Invariant {T : Type} (p : Pv T) : Prop :=
  p.data.length = p.shape.prod ∧ p.strides.length = p.shape.length ∧
    p.strides = rowMajorStrides p.shape

/-- The left fold of `broadcast_shapes` over a list of shapes. -/
def foldShapes : List Nat → List (List Nat) → Except String (List Nat)
  | s, [] => .ok s
  | s, b :: rest =>
      match broadcast_shapes s b with
      | .ok t => foldShapes t rest
      | .error msg => .error msg

/-- Resolve `a` with `b`, then the result with `c`. -/
def resolveLeft (a b c : List Nat) : Except String (List Nat) :=
  match broadcast_shapes a b with
  | .ok r => broadcast_shapes r c
  | .error msg => .error msg

/-- Resolve `b` with `c`, then `a` with the result. -/
def resolveRight (a b c : List Nat) : Except String (List Nat) :=
  match broadcast_shapes b c with
  | .ok r => broadcast_shapes a r
  | .error msg => .error msg

/-! ## Concrete inputs used in the examples -/

/-- The core `[1, 2, 3]` of shape `[3]`. -/
def core123 : Pv Int := { data := [1, 2, 3], shape := [3], strides := [1] }

/-- The queue `add [1, 1, 1]`, then `mul [2, 2, 2]`, with operands of shape `[3]`. -/
def queueSameShape : LazyEval Int :=
  ((LazyEval.mk [] : LazyEval Int).add { data := [1, 1, 1], shape := [3], strides := [1] }
    (fun x y => x + y)).add { data := [2, 2, 2], shape := [3], strides := [1] }
    (fun x y => x * y)

/-- The queue `add` against an operand of shape `[1]` holding 1, then `mul`
against an operand of shape `[1]` holding 2. -/
def queueScalarOperands : LazyEval Int :=
  ((LazyEval.mk [] : LazyEval Int).add { data := [1], shape := [1], strides := [1] }
    (fun x y => x + y)).add { data := [2], shape := [1], strides := [1] }
    (fun x y => x * y)

/-- The queue with the single operation `mul [2, 2, 2, 2]`. -/
def queueMul : LazyEval Int :=
  (LazyEval.mk [] : LazyEval Int).add { data := [2, 2, 2, 2], shape := [4], strides := [1] }
    (fun x y => x * y)

/-- The core `[1, 2, 3, 4]` of shape `[4]`. -/
def core1234 : Pv Int := { data := [1, 2, 3, 4], shape := [4], strides := [1] }

/-- A core of shape `[2, 3]`. -/
def core23 : Pv Int := Pv.ofShape [2, 3] 0

/-- A queue whose only operand has shape `[4]`. -/
def queueShape4 : LazyEval Int :=
  (LazyEval.mk [] : LazyEval Int).add (Pv.ofShape [4] 0) (fun x y => x + y)

/-- The storage `[3, 1, 4, 1, 5]`. -/
def coreStat : Pv Int := { data := [3, 1, 4, 1, 5], shape := [5], strides := [1] }

/-- The reduction queue `max`, then `min`. -/
def queueMaxMin : LazyEvalStat Int Int :=
  ((LazyEvalStat.mk []).add maxReduction).add minReduction

/-- The storage `[3, 5, 5, 2]`. -/
def coreTie : Pv Int := { data := [3, 5, 5, 2], shape := [4], strides := [1] }

/-- The storage `[3, -1, -7]`. -/
def coreNeg : Pv Int := { data := [3, -1, -7], shape := [3], strides := [1] }

/-- Dimension `k` of a shape counted from the right, 1 beyond its rank (the
right-aligned, 1-padded view of the broadcasting rule). -/
def dimFromRight (s : List Nat) (k : Nat) : Nat :=
  if k < s.length then s.getD (s.length - 1 - k) 0 else 1

/-- Two aligned dimensions the broadcasting rule accepts. -/
def dimsAgree (x y : Nat) : Prop := x = y ∨ x = 1 ∨ y = 1

/-- A queued addition against an operand of shape `[3]`. -/
def opShape3 : BatchOp Int := { func := fun x y => x + y, tensor := Pv.ofShape [3] 0 }

/-- A queued addition against an operand of shape `[2, 1]`. -/
def opShape21 : BatchOp Int := { func := fun x y => x + y, tensor := Pv.ofShape [2, 1] 0 }

/-- The history invariant of the pool: only workers of the pool return; a
worker has returned only after `stop` was set; the tasks popped followed by the
tasks still queued are the tasks enqueued before `stop` followed by those
enqueued after it; and once a worker has returned, every task enqueued before
`stop` has been popped. -/
def PoolState.Inv (n : Nat) (s : PoolState) : Prop :=
  (∀ i ∈ s.exited, i < n) ∧
  (s.exited ≠ [] → s.stop = true) ∧
  (∃ late, s.popped ++ s.tasks = s.early ++ late ∧ (s.stop = false → late = [])) ∧
  (s.exited ≠ [] → s.early <+: s.popped)

/-- A run of the pool: two tasks, shutdown, then two workers draining and returning. -/
def poolTrace : List PoolEvent :=
  [.enqueue 7, .enqueue 8, .shutdown, .worker 0, .worker 1, .worker 0, .worker 1]

/-- The state `poolTrace` ends in. -/
def poolFinal : PoolState :=
  { tasks := [], stop := true, exited := [1, 0], popped := [7, 8], early := [7, 8] }

/-- A queue whose only operand is a column of shape `[2, 1]`. -/
def queueColumn : LazyEval Int :=
  (LazyEval.mk [] : LazyEval Int).add { data := [10, 20], shape := [2, 1], strides := [1, 1] }
    (fun x y => x + y)

/-- A core with a dimension of size 0 (and no data). -/
def coreEmptyDim : Pv Int := Pv.ofShape [0] 0

/-- A queue whose only operand has shape `[1]`. -/
def queueUnit : LazyEval Int :=
  (LazyEval.mk [] : LazyEval Int).add (Pv.ofShape [1] 5) (fun x y => x + y)

/-! ## `lazyEval.tpp` : the engine with its operands held by pointer -/

/-- The queue entry `LazyEval::BatchOp` as the source declares it: the field
`const TensorType* tensor` is the address of the operand.  The tensor objects
that exist during a call form a heap, a list indexed by address; the core that
`execute` receives by reference is one of them, so an operand may be the core
itself, and every read of an operand sees what the heap holds at that moment. -/
structure BatchOpPtr (T : Type) where
  func : T → T → T
  tensor : Nat

/-- The engine `struct LazyEval` with the queue of `BatchOpPtr`. -/
structure LazyEvalPtr (T : Type) where
  batch : List (BatchOpPtr T)

/-- The method `LazyEval::add`: `batch.push_back({f, &other})`, where `other` is
the address of the operand. -/
def LazyEvalPtr.add {T : Type} (self : LazyEvalPtr T) (other : Nat) (f : T → T → T) :
    LazyEvalPtr T :=
  { batch := self.batch ++ [{ func := f, tensor := other }] }

/-- Step 1 of `LazyEval::execute`, reading `op.tensor->shape` from the heap.  A
pointer to no object is an undefined read; an exception of `broadcast_shapes`
leaves the loop. -/
def foldTargetPtr {T : Type} (heap : List (Pv T)) :
    List Nat → List (BatchOpPtr T) → Outcome (List Nat)
  | target_shape, [] => .done target_shape
  | target_shape, op :: rest =>
      match heap[op.tensor]? with
      | none => .undefined_read
      | some operand =>
          match broadcast_shapes target_shape operand.shape with
          | .ok t => foldTargetPtr heap t rest
          | .error msg => .threw msg target_shape

/-- The scalar loop `for (; i < end; i++) core.data[i] = op.func(core.data[i],
op.tensor->data[i]);` on the heap, with `n` iterations left: `core` and `tensor`
are the addresses of the core and of the operand, both read before the write. -/
def scalarLoopPtr {T : Type} (f : T → T → T) (core tensor : Nat) :
    Nat → Nat → List (Pv T) → Outcome (List (Pv T))
  | 0, _, heap => .done heap
  | n + 1, i, heap =>
      match heap[core]?, heap[tensor]? with
      | some c, some t =>
          match c.data[i]?, t.data[i]? with
          | some x, some y =>
              scalarLoopPtr f core tensor n (i + 1)
                (heap.set core { c with data := c.data.set i (f x y) })
          | _, _ => .undefined_read
      | _, _ => .undefined_read

/-- The NEON loop `for (; i + 4 <= end; i += 4)` on the heap: both loads come
before the store. -/
def simdLoopPtr {T : Type} (vop : T → T → T) (core tensor : Nat) :
    Nat → Nat → List (Pv T) → Outcome (List (Pv T))
  | 0, _, heap => .done heap
  | n + 1, i, heap =>
      match heap[core]?, heap[tensor]? with
      | some c, some t =>
          match load4 c.data i, load4 t.data i with
          | some a, some b =>
              let r := (vop a.1 b.1, vop a.2.1 b.2.1, vop a.2.2.1 b.2.2.1, vop a.2.2.2 b.2.2.2)
              simdLoopPtr vop core tensor n (i + 4) (heap.set core { c with data := store4 c.data i r })
          | _, _ => .undefined_read
      | _, _ => .undefined_read

/-- One queued operation on the chunk `[start, stop)` of the core at address
`core`; `neon` selects the branch of `if constexpr` as in `applyOp`. -/
def applyOpPtr {T : Type} (neon : Option (T → T → T)) (op : BatchOpPtr T) (core : Nat)
    (start stop : Nat) (heap : List (Pv T)) : Outcome (List (Pv T)) :=
  match neon with
  | none => scalarLoopPtr op.func core op.tensor (stop - start) start heap
  | some vop =>
      let nvec := (stop - start) / 4
      match simdLoopPtr vop core op.tensor nvec start heap with
      | .done heap1 =>
          scalarLoopPtr op.func core op.tensor (stop - (start + 4 * nvec)) (start + 4 * nvec) heap1
      | other => other

/-- The loop `for (auto& op : this->batch)` inside a claimed chunk, on the heap. -/
def processChunkPtr {T : Type} (neon : Option (T → T → T)) (core : Nat) :
    List (BatchOpPtr T) → Nat → Nat → List (Pv T) → Outcome (List (Pv T))
  | [], _, _, heap => .done heap
  | op :: rest, start, stop, heap =>
      match applyOpPtr neon op core start stop heap with
      | .done heap1 => processChunkPtr neon core rest start stop heap1
      | other => other

/-- The lambda `worker` on the heap; the state is `(next_idx, heap)` and `fuel`
bounds the number of iterations of `while (true)`. -/
def workerPtr {T : Type} (neon : Option (T → T → T)) (batch : List (BatchOpPtr T))
    (core N chunk : Nat) : Nat → Nat × List (Pv T) → Outcome (Nat × List (Pv T))
  | 0, _ => .out_of_fuel
  | fuel + 1, (next_idx, heap) =>
      let start := next_idx
      if start ≥ N then .done (next_idx + chunk, heap)
      else
        match processChunkPtr neon core batch start (min (start + chunk) N) heap with
        | .done heap1 => workerPtr neon batch core N chunk fuel (next_idx + chunk, heap1)
        | .threw msg _ => .threw msg (next_idx + chunk, heap)
        | .undefined_read => .undefined_read
        | .out_of_fuel => .out_of_fuel

/-- The launched threads on the heap, run one after the other. -/
def runThreadsPtr {T : Type} (neon : Option (T → T → T)) (batch : List (BatchOpPtr T))
    (core N chunk : Nat) : Nat → Nat × List (Pv T) → Outcome (Nat × List (Pv T))
  | 0, s => .done s
  | t + 1, s =>
      match workerPtr neon batch core N chunk (N + 1) s with
      | .done s1 => runThreadsPtr neon batch core N chunk t s1
      | other => other

/-- The method `LazyEval::execute` on the state `(heap, engine)`, called on the
tensor at address `core`.  The materialization block reads and writes the core
only, so it is `materialize` on the object at `core`, stored back; the compute
pass reads `core.data` and `op.tensor->data` from the heap at every step. -/
def LazyEvalPtr.execute {T : Type} [Inhabited T] (neon : Option (T → T → T)) (hc : Nat)
    (self : LazyEvalPtr T) (heap : List (Pv T)) (core : Nat) :
    Outcome (List (Pv T) × LazyEvalPtr T) :=
  if self.batch.isEmpty then .done (heap, self)
  else
    match heap[core]? with
    | none => .undefined_read
    | some c =>
        match foldTargetPtr heap c.shape self.batch with
        | .threw msg _ => .threw msg (heap, self)
        | .undefined_read => .undefined_read
        | .out_of_fuel => .out_of_fuel
        | .done target_shape =>
            match (if c.shape ≠ target_shape then materialize c target_shape else some c) with
            | none => .undefined_read
            | some c1 =>
                let heap1 := heap.set core c1
                let threads_hardware := if hc = 0 then 4 else hc
                let N := c1.data.length
                let min_chunk := 1024
                let chunk := max (N / threads_hardware) min_chunk
                let num_threads := (N + chunk - 1) / chunk
                match runThreadsPtr neon self.batch core N chunk num_threads (0, heap1) with
                | .done (_, heap2) => .done (heap2, { batch := [] })
                | .threw msg _ => .threw msg (heap1, self)
                | .undefined_read => .undefined_read
                | .out_of_fuel => .out_of_fuel

/-- The value at flat position `i` of the operand at address `tensor` in `heap`. -/
def operandCell {T : Type} [Inhabited T] (heap : List (Pv T)) (tensor i : Nat) : T :=
  match heap[tensor]? with
  | some t => t.data.getD i default
  | none => default

/-- The cell value in the wording of the specification: the queued functions
folded from the left over the original value `x`, each with the value that its
operand holds at position `i` in the heap before the call. -/
def cellFoldEnqueued {T : Type} [Inhabited T] (heap : List (Pv T)) (batch : List (BatchOpPtr T))
    (i : Nat) (x : T) : T :=
  batch.foldl (fun acc op => op.func acc (operandCell heap op.tensor i)) x

/-- The cell value with aliasing taken into account: an entry whose operand is
the core itself (address `core`) combines the current value of the cell with
itself; every other entry reads its operand from the heap before the call. -/
def cellFoldPtr {T : Type} [Inhabited T] (heap : List (Pv T)) (core : Nat)
    (batch : List (BatchOpPtr T)) (i : Nat) (x : T) : T :=
  batch.foldl
    (fun acc op => op.func acc (if op.tensor = core then acc else operandCell heap op.tensor i)) x

/-- The queue entry by value that acts on the cells of the core as `op` does:
an entry that points to the core combines each cell with itself (its operand
is only read for its length); another entry carries the object it points to. -/
def BatchOpPtr.byValue {T : Type} (heap : List (Pv T)) (core : Nat) (core0 : Pv T)
    (op : BatchOpPtr T) : BatchOp T :=
  if op.tensor = core then { func := fun x _ => op.func x x, tensor := core0 }
  else { func := op.func, tensor := heap.getD op.tensor core0 }

/-- The heap with the core `[1, 2, 3]` at address 0 and the storage `[1, 1, 1]`
at address 1. -/
def heapTwo : List (Pv Int) := [core123, { data := [1, 1, 1], shape := [3], strides := [1] }]

/-- The queue `add` against the storage at address 1, then `add` against the
core itself (address 0). -/
def queueThenSelf : LazyEvalPtr Int :=
  ((LazyEvalPtr.mk [] : LazyEvalPtr Int).add 1 (fun x y => x + y)).add 0 (fun x y => x + y)

/-- The queue of `x.add(x).add(x)`: twice `add` against the core itself
(address 0). -/
def queueSelfTwice : LazyEvalPtr Int :=
  ((LazyEvalPtr.mk [] : LazyEvalPtr Int).add 0 (fun x y => x + y)).add 0 (fun x y => x + y)

/-! ## Broadcasting rule -/

theorem padLeftOnes_length (n : Nat) (s : List Nat) (h : s.length ≤ n) :
    (padLeftOnes n s).length = n := by
  simp [padLeftOnes]; omega

theorem padLeftOnes_getD (n : Nat) (s : List Nat) (i : Nat) (h : s.length ≤ n) (hi : i < n) :
    (padLeftOnes n s).getD i 1 = if i < n - s.length then 1 else s.getD (i - (n - s.length)) 0 := by
  unfold padLeftOnes
  by_cases hlt : i < n - s.length
  · simp [List.getD_eq_getElem?_getD, List.getElem?_append_left, hlt]
  · have h2 : i - (n - s.length) < s.length := by omega
    have h3 : (List.replicate (n - s.length) 1).length ≤ i := by simp; omega
    rw [List.getD_eq_getElem?_getD, List.getElem?_append_right h3]
    simp [List.getD_eq_getElem?_getD, hlt, h2]

/-- When every remaining aligned pair is compatible the loop returns, and the
result holds the maxima from position `i` on. -/
theorem broadcastLoop_ok (a b : List Nat) (n : Nat) (ha : a.length ≤ n) (hb : b.length ≤ n) :
    ∀ (k i : Nat) (result : List Nat), i + k = n → result.length = n →
      (∀ j, i ≤ j → j < n →
        (padLeftOnes n a).getD j 1 = (padLeftOnes n b).getD j 1 ∨
          (padLeftOnes n a).getD j 1 = 1 ∨ (padLeftOnes n b).getD j 1 = 1) →
      ∃ r, broadcastLoop a b n k i result = .ok r ∧ r.length = n ∧
        ∀ j, j < n → r.getD j 0 =
          if j < i then result.getD j 0
          else max ((padLeftOnes n a).getD j 1) ((padLeftOnes n b).getD j 1) := by
  intro k
  induction k with
  | zero =>
    intro i result hik hlen _
    refine ⟨result, rfl, hlen, ?_⟩
    intro j hj
    have : j < i := by omega
    simp [this]
  | succ k ih =>
    intro i result hik hlen hc
    have hi : i < n := by omega
    have hci := hc i (Nat.le_refl i) hi
    rw [padLeftOnes_getD n a i ha hi, padLeftOnes_getD n b i hb hi] at hci
    unfold broadcastLoop
    simp only [hci, if_true]
    obtain ⟨r, hr, hrl, hrj⟩ := ih (i + 1)
      (result.set i (max (if i < n - a.length then 1 else a.getD (i - (n - a.length)) 0)
        (if i < n - b.length then 1 else b.getD (i - (n - b.length)) 0)))
      (by omega) (by simpa using hlen) (fun j hj1 hj2 => hc j (by omega) hj2)
    refine ⟨r, hr, hrl, ?_⟩
    intro j hj
    rw [hrj j hj]
    by_cases h1 : j < i
    · have h2 : j < i + 1 := by omega
      have h3 : i ≠ j := by omega
      simp [h1, h2, List.getD_eq_getElem?_getD, List.getElem?_set, h3]
    · by_cases h2 : j = i
      · subst h2
        have h4 : j < result.length := by omega
        simp [List.getD_eq_getElem?_getD, List.getElem?_set, h4]
        have e1 := padLeftOnes_getD n a j ha hi
        have e2 := padLeftOnes_getD n b j hb hi
        rw [List.getD_eq_getElem?_getD] at e1 e2
        rw [e1, e2]
        simp [List.getD_eq_getElem?_getD]
      · have h3 : ¬ j < i + 1 := by omega
        simp [h1, h3]

/-- When some remaining aligned pair is incompatible the loop throws. -/
theorem broadcastLoop_error (a b : List Nat) (n : Nat) (ha : a.length ≤ n) (hb : b.length ≤ n) :
    ∀ (k i : Nat) (result : List Nat), i + k = n →
      (∃ j, i ≤ j ∧ j < n ∧
        ¬ ((padLeftOnes n a).getD j 1 = (padLeftOnes n b).getD j 1 ∨
          (padLeftOnes n a).getD j 1 = 1 ∨ (padLeftOnes n b).getD j 1 = 1)) →
      broadcastLoop a b n k i result = .error broadcastError := by
  intro k
  induction k with
  | zero =>
    intro i result hik ⟨j, h1, h2, _⟩
    omega
  | succ k ih =>
    intro i result hik ⟨j, h1, h2, h3⟩
    have hi : i < n := by omega
    unfold broadcastLoop
    by_cases hci : (padLeftOnes n a).getD i 1 = (padLeftOnes n b).getD i 1 ∨
          (padLeftOnes n a).getD i 1 = 1 ∨ (padLeftOnes n b).getD i 1 = 1
    · have hne : j ≠ i := by
        intro h; subst h; exact h3 hci
      rw [padLeftOnes_getD n a i ha hi, padLeftOnes_getD n b i hb hi] at hci
      simp only [hci, if_true]
      exact ih (i + 1) _ (by omega) ⟨j, by omega, h2, h3⟩
    · rw [padLeftOnes_getD n a i ha hi, padLeftOnes_getD n b i hb hi] at hci
      simp only [hci, if_false]

/-- C1. `broadcast_shapes a b` follows the broadcasting rule: with both shapes
right-aligned and left-padded by 1s to `n = max (len a) (len b)` dimensions, the
call fails exactly when some aligned pair `(x, y)` has `x ≠ y`, `x ≠ 1` and
`y ≠ 1`; when it returns, the result has `n` dimensions, and dimension `i` is
`x` when `x = y` and `max x y` when `x = 1` or `y = 1`.  The three examples of
the specification are evaluated as well. -/
theorem broadcast_shapes_rule (a b : List Nat) :
    ((∃ msg, broadcast_shapes a b = .error msg) ↔
      ∃ i, i < max a.length b.length ∧
        (padLeftOnes (max a.length b.length) a).getD i 1 ≠
          (padLeftOnes (max a.length b.length) b).getD i 1 ∧
        (padLeftOnes (max a.length b.length) a).getD i 1 ≠ 1 ∧
        (padLeftOnes (max a.length b.length) b).getD i 1 ≠ 1) ∧
    (∀ r, broadcast_shapes a b = .ok r →
      r.length = max a.length b.length ∧
      ∀ i, i < max a.length b.length →
        ((padLeftOnes (max a.length b.length) a).getD i 1 =
            (padLeftOnes (max a.length b.length) b).getD i 1 →
          r.getD i 0 = (padLeftOnes (max a.length b.length) a).getD i 1) ∧
        ((padLeftOnes (max a.length b.length) a).getD i 1 = 1 ∨
            (padLeftOnes (max a.length b.length) b).getD i 1 = 1 →
          r.getD i 0 = max ((padLeftOnes (max a.length b.length) a).getD i 1)
            ((padLeftOnes (max a.length b.length) b).getD i 1))) ∧
    broadcast_shapes [5, 1] [1, 3] = .ok [5, 3] ∧
    broadcast_shapes [4] [3, 4] = .ok [3, 4] ∧
    broadcast_shapes [2, 3] [4] = .error broadcastError := by
  have ha : a.length ≤ max a.length b.length := Nat.le_max_left _ _
  have hb : b.length ≤ max a.length b.length := Nat.le_max_right _ _
  generalize hn : max a.length b.length = n at ha hb ⊢
  have hdec : (∀ j, j < n → (padLeftOnes n a).getD j 1 = (padLeftOnes n b).getD j 1 ∨
      (padLeftOnes n a).getD j 1 = 1 ∨ (padLeftOnes n b).getD j 1 = 1) ∨
      (∃ j, j < n ∧ ¬ ((padLeftOnes n a).getD j 1 = (padLeftOnes n b).getD j 1 ∨
      (padLeftOnes n a).getD j 1 = 1 ∨ (padLeftOnes n b).getD j 1 = 1)) := by
    by_cases h : ∃ j, j < n ∧ ¬ ((padLeftOnes n a).getD j 1 = (padLeftOnes n b).getD j 1 ∨
      (padLeftOnes n a).getD j 1 = 1 ∨ (padLeftOnes n b).getD j 1 = 1)
    · exact Or.inr h
    · left
      intro j hj
      by_contra hc
      exact h ⟨j, hj, hc⟩
  have hunf : broadcast_shapes a b = broadcastLoop a b n n 0 (List.replicate n 0) := by
    simp only [broadcast_shapes, hn]
  refine ⟨?_, ?_, rfl, rfl, rfl⟩
  · constructor
    · rintro ⟨msg, hmsg⟩
      rcases hdec with hall | ⟨j, hj, hbad⟩
      · obtain ⟨r, hr, _, _⟩ := broadcastLoop_ok a b n ha hb n 0 (List.replicate n 0)
          (by omega) (by simp) (fun j _ hj => hall j hj)
        rw [hunf, hr] at hmsg
        cases hmsg
      · refine ⟨j, hj, ?_, ?_, ?_⟩
        · exact fun h => hbad (Or.inl h)
        · exact fun h => hbad (Or.inr (Or.inl h))
        · exact fun h => hbad (Or.inr (Or.inr h))
    · rintro ⟨j, hj, h1, h2, h3⟩
      refine ⟨broadcastError, ?_⟩
      rw [hunf]
      refine broadcastLoop_error a b n ha hb n 0 _ (by omega) ⟨j, Nat.zero_le j, hj, ?_⟩
      rintro (h | h | h)
      · exact h1 h
      · exact h2 h
      · exact h3 h
  · intro r hr
    rcases hdec with hall | ⟨j, hj, hbad⟩
    · obtain ⟨r', hr', hlen, hget⟩ := broadcastLoop_ok a b n ha hb n 0 (List.replicate n 0)
        (by omega) (by simp) (fun j _ hj => hall j hj)
      rw [hunf, hr'] at hr
      cases hr
      refine ⟨hlen, ?_⟩
      intro i hi
      have hgi := hget i hi
      simp only [Nat.not_lt_zero, if_false] at hgi
      constructor
      · intro hxy
        rw [hgi, hxy, max_self]
      · intro _
        exact hgi
    · have herr := broadcastLoop_error a b n ha hb n 0 (List.replicate n 0) (by omega)
        ⟨j, Nat.zero_le j, hj, hbad⟩
      rw [hunf, herr] at hr
      cases hr

/-! ## The scalar compute pass -/

theorem scalarLoop_getD {T : Type} [Inhabited T] (f : T → T → T) (operand : List T) :
    ∀ (n i : Nat) (data : List T), i + n ≤ data.length → i + n ≤ operand.length →
      ∃ d, scalarLoop f operand n i data = .done d ∧ d.length = data.length ∧
        ∀ j, d.getD j default =
          if i ≤ j ∧ j < i + n then f (data.getD j default) (operand.getD j default)
          else data.getD j default := by
  intro n
  induction n with
  | zero =>
    intro i data _ _
    refine ⟨data, rfl, rfl, ?_⟩
    intro j
    have : ¬ (i ≤ j ∧ j < i + 0) := by omega
    rw [if_neg this]
  | succ n ih =>
    intro i data hd ho
    have hi1 : i < data.length := by omega
    have hi2 : i < operand.length := by omega
    unfold scalarLoop
    rw [List.getElem?_eq_getElem hi1, List.getElem?_eq_getElem hi2]
    simp only
    obtain ⟨d, hd1, hd2, hd3⟩ := ih (i + 1) (data.set i (f data[i] operand[i]))
      (by simp; omega) (by omega)
    refine ⟨d, hd1, by simpa using hd2, ?_⟩
    intro j
    rw [hd3 j]
    by_cases hj : j = i
    · subst hj
      have h1 : ¬ (j + 1 ≤ j ∧ j < j + 1 + n) := by omega
      have h2 : j ≤ j ∧ j < j + (n + 1) := by omega
      simp [h1, h2, List.getD_eq_getElem?_getD, hi1, hi2]
    · have hne : i ≠ j := fun h => hj h.symm
      by_cases hr : i + 1 ≤ j ∧ j < i + 1 + n
      · have h2 : i ≤ j ∧ j < i + (n + 1) := by omega
        simp [hr, h2, List.getD_eq_getElem?_getD, List.getElem?_set, hne]
      · have h2 : ¬ (i ≤ j ∧ j < i + (n + 1)) := by omega
        simp [hr, h2, List.getD_eq_getElem?_getD, List.getElem?_set, hne]

theorem cellFold_cons {T : Type} [Inhabited T] (op : BatchOp T) (rest : List (BatchOp T))
    (i : Nat) (x : T) :
    cellFold (op :: rest) i x = cellFold rest i (op.func x (op.tensor.data.getD i default)) := by
  simp [cellFold]

theorem processChunk_scalar {T : Type} [Inhabited T] :
    ∀ (batch : List (BatchOp T)) (start stop : Nat) (data : List T),
      start ≤ stop → stop ≤ data.length →
      (∀ op ∈ batch, stop ≤ op.tensor.data.length) →
      ∃ d, processChunk none batch start stop data = .done d ∧ d.length = data.length ∧
        ∀ j, d.getD j default =
          if start ≤ j ∧ j < stop then cellFold batch j (data.getD j default)
          else data.getD j default := by
  intro batch
  induction batch with
  | nil =>
    intro start stop data _ _ _
    refine ⟨data, rfl, rfl, ?_⟩
    intro j
    simp [cellFold]
  | cons op rest ih =>
    intro start stop data h1 h2 h3
    obtain ⟨d1, e1, l1, g1⟩ := scalarLoop_getD op.func op.tensor.data (stop - start) start data
      (by omega) (by have := h3 op (List.mem_cons_self _ _); omega)
    obtain ⟨d2, e2, l2, g2⟩ := ih start stop d1 h1 (by omega)
      (fun o ho => h3 o (List.mem_cons_of_mem _ ho))
    refine ⟨d2, ?_, by omega, ?_⟩
    · simp only [processChunk, applyOp, e1, e2]
    · intro j
      rw [g2 j, g1 j, cellFold_cons]
      by_cases hr : start ≤ j ∧ j < stop
      · have hr2 : start ≤ j ∧ j < start + (stop - start) := by omega
        simp [hr, hr2]
      · have hr2 : ¬ (start ≤ j ∧ j < start + (stop - start)) := by omega
        simp [hr, hr2]

/-- If every chunk is processed as the cell-wise function `g`, a worker that
starts with the cursor at `next_idx` applies `g` to every cell from `next_idx` on. -/
theorem worker_cells {T : Type} [Inhabited T] (neon : Option (T → T → T))
    (batch : List (BatchOp T)) (N chunk : Nat) (g : Nat → T → T) (hchunk : 0 < chunk)
    (hproc : ∀ (start stop : Nat) (data : List T), start ≤ stop → stop ≤ N → data.length = N →
      ∃ d, processChunk neon batch start stop data = .done d ∧ d.length = N ∧
        ∀ j, d.getD j default =
          if start ≤ j ∧ j < stop then g j (data.getD j default) else data.getD j default) :
    ∀ (fuel next_idx : Nat) (data : List T), data.length = N → N < next_idx + fuel →
      0 < fuel →
      ∃ nx d, worker neon batch N chunk fuel (next_idx, data) = .done (nx, d) ∧ N ≤ nx ∧
        d.length = N ∧
        ∀ j, d.getD j default =
          if next_idx ≤ j ∧ j < N then g j (data.getD j default) else data.getD j default := by
  intro fuel
  induction fuel with
  | zero =>
    intro next_idx data hlen hfuel hpos
    omega
  | succ fuel ih =>
    intro next_idx data hlen hfuel _
    unfold worker
    by_cases hge : next_idx ≥ N
    · simp only [hge, if_true]
      refine ⟨next_idx + chunk, data, rfl, by omega, hlen, ?_⟩
      intro j
      have : ¬ (next_idx ≤ j ∧ j < N) := by omega
      rw [if_neg this]
    · simp only [hge, if_false]
      obtain ⟨d1, e1, l1, g1⟩ := hproc next_idx (min (next_idx + chunk) N) data
        (by omega) (by omega) hlen
      rw [e1]
      simp only
      obtain ⟨nx, d2, e2, hnx, l2, g2⟩ := ih (next_idx + chunk) d1 l1 (by omega) (by omega)
      refine ⟨nx, d2, e2, hnx, l2, ?_⟩
      intro j
      rw [g2 j, g1 j]
      by_cases h1 : next_idx + chunk ≤ j ∧ j < N
      · have h2 : ¬ (next_idx ≤ j ∧ j < min (next_idx + chunk) N) := by omega
        have h3 : next_idx ≤ j ∧ j < N := by omega
        rw [if_pos h1, if_neg h2, if_pos h3]
      · rw [if_neg h1]
        by_cases h3 : next_idx ≤ j ∧ j < N
        · have h2 : next_idx ≤ j ∧ j < min (next_idx + chunk) N := by omega
          rw [if_pos h2, if_pos h3]
        · have h2 : ¬ (next_idx ≤ j ∧ j < min (next_idx + chunk) N) := by omega
          rw [if_neg h2, if_neg h3]

/-- The launched threads together apply `g` to every cell from the cursor on,
as soon as one thread runs or nothing is left to claim. -/
theorem runThreads_cells {T : Type} [Inhabited T] (neon : Option (T → T → T))
    (batch : List (BatchOp T)) (N chunk : Nat) (g : Nat → T → T) (hchunk : 0 < chunk)
    (hproc : ∀ (start stop : Nat) (data : List T), start ≤ stop → stop ≤ N → data.length = N →
      ∃ d, processChunk neon batch start stop data = .done d ∧ d.length = N ∧
        ∀ j, d.getD j default =
          if start ≤ j ∧ j < stop then g j (data.getD j default) else data.getD j default) :
    ∀ (t next_idx : Nat) (data : List T), data.length = N → (0 < t ∨ N ≤ next_idx) →
      ∃ nx d, runThreads neon batch N chunk t (next_idx, data) = .done (nx, d) ∧
        d.length = N ∧
        ∀ j, d.getD j default =
          if next_idx ≤ j ∧ j < N then g j (data.getD j default) else data.getD j default := by
  intro t
  induction t with
  | zero =>
    intro next_idx data hlen ht
    refine ⟨next_idx, data, rfl, hlen, ?_⟩
    intro j
    have : ¬ (next_idx ≤ j ∧ j < N) := by omega
    rw [if_neg this]
  | succ t ih =>
    intro next_idx data hlen _
    obtain ⟨nx, d1, e1, hnx, l1, g1⟩ :=
      worker_cells neon batch N chunk g hchunk hproc (N + 1) next_idx data hlen (by omega) (by omega)
    obtain ⟨nx2, d2, e2, l2, g2⟩ := ih nx d1 l1 (Or.inr hnx)
    refine ⟨nx2, d2, ?_, l2, ?_⟩
    · simp only [runThreads, e1, e2]
    · intro j
      rw [g2 j]
      have : ¬ (nx ≤ j ∧ j < N) := by omega
      rw [if_neg this, g1 j]

theorem padLeftOnes_self (s : List Nat) : padLeftOnes s.length s = s := by
  simp [padLeftOnes]

theorem list_eq_of_getD {α : Type} (d : α) (xs ys : List α) (hl : xs.length = ys.length)
    (h : ∀ j, j < xs.length → xs.getD j d = ys.getD j d) : xs = ys := by
  apply List.ext_getElem hl
  intro j h1 h2
  have := h j h1
  simpa [List.getD_eq_getElem?_getD, h1, h2] using this

theorem broadcast_shapes_self (s : List Nat) : broadcast_shapes s s = .ok s := by
  have hunf : broadcast_shapes s s = broadcastLoop s s s.length s.length 0
      (List.replicate s.length 0) := by
    simp [broadcast_shapes]
  obtain ⟨r, hr, hlen, hget⟩ := broadcastLoop_ok s s s.length (Nat.le_refl _) (Nat.le_refl _)
    s.length 0 (List.replicate s.length 0) (by omega) (by simp) (fun j _ _ => Or.inl rfl)
  rw [hunf, hr]
  congr 1
  apply list_eq_of_getD 0 r s hlen
  intro j hj
  rw [hget j (by omega)]
  simp only [Nat.not_lt_zero, if_false, max_self, padLeftOnes_self]
  rw [hlen] at hj
  simp [List.getD_eq_getElem?_getD, hj]

theorem foldTarget_same {T : Type} (s : List Nat) :
    ∀ (batch : List (BatchOp T)), (∀ op ∈ batch, op.tensor.shape = s) →
      foldTarget s batch = .ok s := by
  intro batch
  induction batch with
  | nil => intro _; rfl
  | cons op rest ih =>
    intro h
    have h1 := h op (List.mem_cons_self _ _)
    simp only [foldTarget, h1, broadcast_shapes_self]
    exact ih (fun o ho => h o (List.mem_cons_of_mem _ ho))

theorem num_threads_pos (N chunk : Nat) (hchunk : 0 < chunk) (hN : 0 < N) :
    0 < (N + chunk - 1) / chunk :=
  Nat.div_pos (by omega) hchunk

/-! ## The compute pass with operands held by pointer -/

theorem heap_set_set {T : Type} (heap : List (Pv T)) (c : Nat) (x y : Pv T) :
    (heap.set c x).set c y = heap.set c y := by
  simp

theorem heap_set_get {T : Type} (heap : List (Pv T)) (c : Nat) (core x : Pv T)
    (h : heap[c]? = some core) : (heap.set c x)[c]? = some x := by
  have hlt : c < heap.length := by
    by_contra hge
    rw [List.getElem?_eq_none (by omega)] at h
    cases h
  simp [List.getElem?_set, hlt]

theorem heap_set_other {T : Type} (heap : List (Pv T)) (c a : Nat) (x : Pv T) (h : a ≠ c) :
    (heap.set c x)[a]? = heap[a]? := by
  have hne : c ≠ a := fun e => h e.symm
  simp [List.getElem?_set, hne]

theorem heap_set_self {T : Type} (heap : List (Pv T)) (c : Nat) (core : Pv T)
    (h : heap[c]? = some core) : heap.set c core = heap := by
  apply List.ext_getElem?
  intro a
  by_cases ha : a = c
  · subst ha
    rw [heap_set_get heap a core core h, h]
  · rw [heap_set_other heap c a core ha]

/-- The scalar loop against an operand at another address than the core acts on
the data of the core as the loop by value against the data of that operand. -/
theorem scalarLoopPtr_other {T : Type} (f : T → T → T) (c a : Nat) (hne : a ≠ c) (p : Pv T) :
    ∀ (n i : Nat) (heap : List (Pv T)) (core : Pv T) (d : List T),
      heap[c]? = some core → heap[a]? = some p →
      scalarLoop f p.data n i core.data = .done d →
      scalarLoopPtr f c a n i heap = .done (heap.set c { core with data := d }) := by
  intro n
  induction n with
  | zero =>
    intro i heap core d hcore _ h
    simp only [scalarLoop, Outcome.done.injEq] at h
    subst h
    simp only [scalarLoopPtr]
    rw [heap_set_self heap c core hcore]
  | succ n ih =>
    intro i heap core d hcore hop h
    unfold scalarLoop at h
    unfold scalarLoopPtr
    rw [hcore, hop]
    cases hx : core.data[i]? with
    | none => simp [hx] at h
    | some x =>
      cases hy : p.data[i]? with
      | none => simp [hx, hy] at h
      | some y =>
        simp only [hx, hy] at h
        simp only [hx, hy]
        have h2 := ih (i + 1) (heap.set c { core with data := core.data.set i (f x y) })
          { core with data := core.data.set i (f x y) } d
          (heap_set_get heap c core _ hcore)
          (by rw [heap_set_other heap c a _ hne]; exact hop) h
        rw [h2, heap_set_set]

/-- The scalar loop against the core itself combines each cell with itself. -/
theorem scalarLoopPtr_self {T : Type} (f : T → T → T) (c : Nat) (operand : List T) :
    ∀ (n i : Nat) (heap : List (Pv T)) (core : Pv T) (d : List T),
      heap[c]? = some core →
      scalarLoop (fun x _ => f x x) operand n i core.data = .done d →
      scalarLoopPtr f c c n i heap = .done (heap.set c { core with data := d }) := by
  intro n
  induction n with
  | zero =>
    intro i heap core d hcore h
    simp only [scalarLoop, Outcome.done.injEq] at h
    subst h
    simp only [scalarLoopPtr]
    rw [heap_set_self heap c core hcore]
  | succ n ih =>
    intro i heap core d hcore h
    unfold scalarLoop at h
    unfold scalarLoopPtr
    rw [hcore]
    cases hx : core.data[i]? with
    | none => simp [hx] at h
    | some x =>
      cases hy : operand[i]? with
      | none => simp [hx, hy] at h
      | some y =>
        simp only [hx, hy] at h
        simp only [hx]
        have h2 := ih (i + 1) (heap.set c { core with data := core.data.set i (f x x) })
          { core with data := core.data.set i (f x x) } d
          (heap_set_get heap c core _ hcore) h
        rw [h2, heap_set_set]

/-- One queued operation on the scalar path: the heap engine acts on the core
as the engine by value does with the entry `byValue` of the heap `heap0` before
the pass, as long as the heap agrees with `heap0` away from the core. -/
theorem applyOpPtr_sim {T : Type} (op : BatchOpPtr T) (c : Nat) (core0 : Pv T)
    (heap0 : List (Pv T)) (start stop : Nat) (heap : List (Pv T)) (core : Pv T) (d : List T)
    (hcore : heap[c]? = some core)
    (hagree : ∀ a, a ≠ c → heap[a]? = heap0[a]?)
    (hvalid : op.tensor ≠ c → ∃ p, heap0[op.tensor]? = some p)
    (h : applyOp none (op.byValue heap0 c core0) start stop core.data = .done d) :
    applyOpPtr none op c start stop heap = .done (heap.set c { core with data := d }) := by
  unfold applyOp at h
  unfold applyOpPtr
  simp only at h
  simp only
  by_cases ha : op.tensor = c
  · simp only [BatchOpPtr.byValue, ha, if_true] at h
    rw [ha]
    exact scalarLoopPtr_self op.func c core0.data _ _ heap core d hcore h
  · obtain ⟨p, hp⟩ := hvalid ha
    have hget : heap0.getD op.tensor core0 = p := by
      simp [List.getD_eq_getElem?_getD, hp]
    simp only [BatchOpPtr.byValue, ha, if_false, hget] at h
    exact scalarLoopPtr_other op.func c op.tensor ha p _ _ heap core d hcore
      (by rw [hagree op.tensor ha]; exact hp) h

theorem processChunkPtr_sim {T : Type} (c : Nat) (core0 : Pv T) (heap0 : List (Pv T)) :
    ∀ (batch : List (BatchOpPtr T)) (start stop : Nat) (heap : List (Pv T)) (core : Pv T)
      (d : List T),
      heap[c]? = some core → (∀ a, a ≠ c → heap[a]? = heap0[a]?) →
      (∀ op ∈ batch, op.tensor ≠ c → ∃ p, heap0[op.tensor]? = some p) →
      processChunk none (batch.map (BatchOpPtr.byValue heap0 c core0)) start stop core.data
        = .done d →
      processChunkPtr none c batch start stop heap = .done (heap.set c { core with data := d }) := by
  intro batch
  induction batch with
  | nil =>
    intro start stop heap core d hcore _ _ h
    simp only [List.map_nil, processChunk, Outcome.done.injEq] at h
    subst h
    simp only [processChunkPtr]
    rw [heap_set_self heap c core hcore]
  | cons op rest ih =>
    intro start stop heap core d hcore hagree hvalid h
    simp only [List.map_cons, processChunk] at h
    simp only [processChunkPtr]
    cases h1 : applyOp none (op.byValue heap0 c core0) start stop core.data with
    | done data1 =>
      rw [h1] at h
      simp only at h
      rw [applyOpPtr_sim op c core0 heap0 start stop heap core data1 hcore hagree
        (hvalid op (List.mem_cons_self _ _)) h1]
      simp only
      have h2 := ih start stop (heap.set c { core with data := data1 })
        { core with data := data1 } d (heap_set_get heap c core _ hcore)
        (fun a ha => by rw [heap_set_other heap c a _ ha]; exact hagree a ha)
        (fun o ho => hvalid o (List.mem_cons_of_mem _ ho)) h
      rw [h2, heap_set_set]
    | threw msg s => rw [h1] at h; cases h
    | undefined_read => rw [h1] at h; cases h
    | out_of_fuel => rw [h1] at h; cases h

theorem workerPtr_sim {T : Type} (c : Nat) (core0 : Pv T) (heap0 : List (Pv T))
    (batch : List (BatchOpPtr T)) (N chunk : Nat)
    (hvalid : ∀ op ∈ batch, op.tensor ≠ c → ∃ p, heap0[op.tensor]? = some p) :
    ∀ (fuel next_idx : Nat) (heap : List (Pv T)) (core : Pv T) (nx : Nat) (d : List T),
      heap[c]? = some core → (∀ a, a ≠ c → heap[a]? = heap0[a]?) →
      worker none (batch.map (BatchOpPtr.byValue heap0 c core0)) N chunk fuel
        (next_idx, core.data) = .done (nx, d) →
      workerPtr none batch c N chunk fuel (next_idx, heap)
        = .done (nx, heap.set c { core with data := d }) := by
  intro fuel
  induction fuel with
  | zero =>
    intro next_idx heap core nx d _ _ h
    simp only [worker] at h
    cases h
  | succ fuel ih =>
    intro next_idx heap core nx d hcore hagree h
    unfold worker at h
    unfold workerPtr
    by_cases hge : next_idx ≥ N
    · simp only [hge, if_true, Outcome.done.injEq, Prod.mk.injEq] at h
      simp only [hge, if_true]
      obtain ⟨h1, h2⟩ := h
      subst h1
      subst h2
      rw [heap_set_self heap c core hcore]
    · simp only [hge, if_false] at h
      simp only [hge, if_false]
      cases h1 : processChunk none (batch.map (BatchOpPtr.byValue heap0 c core0)) next_idx
          (min (next_idx + chunk) N) core.data with
      | done data1 =>
        rw [h1] at h
        simp only at h
        rw [processChunkPtr_sim c core0 heap0 batch next_idx (min (next_idx + chunk) N) heap core
          data1 hcore hagree hvalid h1]
        simp only
        have h2 := ih (next_idx + chunk) (heap.set c { core with data := data1 })
          { core with data := data1 } nx d (heap_set_get heap c core _ hcore)
          (fun a ha => by rw [heap_set_other heap c a _ ha]; exact hagree a ha) h
        rw [h2, heap_set_set]
      | threw msg s => rw [h1] at h; cases h
      | undefined_read => rw [h1] at h; cases h
      | out_of_fuel => rw [h1] at h; cases h

theorem runThreadsPtr_sim {T : Type} (c : Nat) (core0 : Pv T) (heap0 : List (Pv T))
    (batch : List (BatchOpPtr T)) (N chunk : Nat)
    (hvalid : ∀ op ∈ batch, op.tensor ≠ c → ∃ p, heap0[op.tensor]? = some p) :
    ∀ (t next_idx : Nat) (heap : List (Pv T)) (core : Pv T) (nx : Nat) (d : List T),
      heap[c]? = some core → (∀ a, a ≠ c → heap[a]? = heap0[a]?) →
      runThreads none (batch.map (BatchOpPtr.byValue heap0 c core0)) N chunk t
        (next_idx, core.data) = .done (nx, d) →
      runThreadsPtr none batch c N chunk t (next_idx, heap)
        = .done (nx, heap.set c { core with data := d }) := by
  intro t
  induction t with
  | zero =>
    intro next_idx heap core nx d hcore _ h
    simp only [runThreads, Outcome.done.injEq, Prod.mk.injEq] at h
    obtain ⟨h1, h2⟩ := h
    subst h1
    subst h2
    simp only [runThreadsPtr]
    rw [heap_set_self heap c core hcore]
  | succ t ih =>
    intro next_idx heap core nx d hcore hagree h
    simp only [runThreads] at h
    simp only [runThreadsPtr]
    cases h1 : worker none (batch.map (BatchOpPtr.byValue heap0 c core0)) N chunk (N + 1)
        (next_idx, core.data) with
    | done s1 =>
      obtain ⟨nx1, data1⟩ := s1
      rw [h1] at h
      simp only at h
      rw [workerPtr_sim c core0 heap0 batch N chunk hvalid (N + 1) next_idx heap core nx1 data1
        hcore hagree h1]
      simp only
      have h2 := ih nx1 (heap.set c { core with data := data1 })
        { core with data := data1 } nx d (heap_set_get heap c core _ hcore)
        (fun a ha => by rw [heap_set_other heap c a _ ha]; exact hagree a ha) h
      rw [h2, heap_set_set]
    | threw msg s => rw [h1] at h; cases h
    | undefined_read => rw [h1] at h; cases h
    | out_of_fuel => rw [h1] at h; cases h

theorem foldTargetPtr_same {T : Type} (heap : List (Pv T)) (s : List Nat) :
    ∀ (batch : List (BatchOpPtr T)),
      (∀ op ∈ batch, ∃ p, heap[op.tensor]? = some p ∧ p.shape = s) →
      foldTargetPtr heap s batch = .done s := by
  intro batch
  induction batch with
  | nil => intro _; rfl
  | cons op rest ih =>
    intro h
    obtain ⟨p, hp, hs⟩ := h op (List.mem_cons_self _ _)
    simp only [foldTargetPtr, hp, hs, broadcast_shapes_self]
    exact ih (fun o ho => h o (List.mem_cons_of_mem _ ho))

/-- The cell value of the queue by value `byValue` is the cell value with
aliasing taken into account. -/
theorem cellFold_byValue {T : Type} [Inhabited T] (heap : List (Pv T)) (c : Nat) (core0 : Pv T)
    (i : Nat) :
    ∀ (batch : List (BatchOpPtr T)) (x : T),
      (∀ op ∈ batch, op.tensor ≠ c → ∃ p, heap[op.tensor]? = some p) →
      cellFold (batch.map (BatchOpPtr.byValue heap c core0)) i x = cellFoldPtr heap c batch i x := by
  intro batch
  induction batch with
  | nil => intro x _; rfl
  | cons op rest ih =>
    intro x hvalid
    have hrest := fun y => ih y (fun o ho => hvalid o (List.mem_cons_of_mem _ ho))
    simp only [List.map_cons, cellFold_cons]
    rw [hrest]
    simp only [cellFoldPtr, List.foldl_cons]
    by_cases ha : op.tensor = c
    · simp only [BatchOpPtr.byValue, ha, if_true]
    · obtain ⟨p, hp⟩ := hvalid op (List.mem_cons_self _ _) ha
      have hget : heap.getD op.tensor core0 = p := by
        simp [List.getD_eq_getElem?_getD, hp]
      simp only [BatchOpPtr.byValue, ha, if_false, hget, operandCell, hp]

/-- Without an entry that points to the core, the cell value is the one in the
wording of the specification. -/
theorem cellFoldPtr_no_alias {T : Type} [Inhabited T] (heap : List (Pv T)) (c : Nat) (i : Nat) :
    ∀ (batch : List (BatchOpPtr T)) (x : T), (∀ op ∈ batch, op.tensor ≠ c) →
      cellFoldPtr heap c batch i x = cellFoldEnqueued heap batch i x := by
  intro batch
  induction batch with
  | nil => intro x _; rfl
  | cons op rest ih =>
    intro x h
    have ha := h op (List.mem_cons_self _ _)
    have hrest := fun y => ih y (fun o ho => h o (List.mem_cons_of_mem _ ho))
    simp only [cellFoldPtr, cellFoldEnqueued, List.foldl_cons, ha, if_false]
    exact hrest _

/-- C2, amended for operands held by pointer.  On the non-vectorised path
(`neon = none`), for every heap of tensors, every core in it, every reported
hardware concurrency and every non-empty queue whose operands all have the
shape and the data length of the core, `LazyEval::execute` returns normally,
clears the queue, changes no tensor but the core, leaves shape and strides of
the core as they were, keeps the data length, and sets every cell `i` to the
left fold of the queued functions, in queue order, starting from the original
cell, where an entry whose operand is the core itself takes the current value
of the cell as its second argument and every other entry takes cell `i` of its
operand.  When no operand is the core itself this is the fold over the operand
cells as the specification words it. -/
theorem execute_scalar_same_shape_ptr {T : Type} [Inhabited T] (hc : Nat) (eng : LazyEvalPtr T)
    (heap : List (Pv T)) (c : Nat) (core : Pv T)
    (hcore : heap[c]? = some core) (hne : eng.batch ≠ [])
    (hops : ∀ op ∈ eng.batch, ∃ p, heap[op.tensor]? = some p ∧
      p.shape = core.shape ∧ p.data.length = core.data.length) :
    ∃ data1, LazyEvalPtr.execute none hc eng heap c =
        .done (heap.set c { core with data := data1 }, { batch := [] }) ∧
      data1.length = core.data.length ∧
      (∀ i, i < core.data.length →
        data1[i]? = some (cellFoldPtr heap c eng.batch i (core.data.getD i default))) ∧
      ((∀ op ∈ eng.batch, op.tensor ≠ c) → ∀ i, i < core.data.length →
        data1[i]? = some (cellFoldEnqueued heap eng.batch i (core.data.getD i default))) := by
  have hfold : foldTargetPtr heap core.shape eng.batch = .done core.shape :=
    foldTargetPtr_same heap core.shape eng.batch
      (fun op ho => by obtain ⟨p, hp, hs, _⟩ := hops op ho; exact ⟨p, hp, hs⟩)
  have hempty : eng.batch.isEmpty = false := by
    cases hb : eng.batch with
    | nil => exact absurd hb hne
    | cons _ _ => rfl
  have hvalid : ∀ op ∈ eng.batch, op.tensor ≠ c → ∃ p, heap[op.tensor]? = some p :=
    fun op ho _ => by obtain ⟨p, hp, _⟩ := hops op ho; exact ⟨p, hp⟩
  have hchunk : 0 < max (core.data.length / (if hc = 0 then 4 else hc)) 1024 :=
    lt_of_lt_of_le (by decide) (Nat.le_max_right _ _)
  have hlen : ∀ op ∈ eng.batch.map (BatchOpPtr.byValue heap c core),
      op.tensor.data.length = core.data.length := by
    intro op ho
    obtain ⟨o, hb, rfl⟩ := List.mem_map.mp ho
    by_cases ha : o.tensor = c
    · simp only [BatchOpPtr.byValue, ha, if_true]
    · obtain ⟨p, hp, _, hl⟩ := hops o hb
      have hget : heap.getD o.tensor core = p := by
        simp [List.getD_eq_getElem?_getD, hp]
      simp only [BatchOpPtr.byValue, ha, if_false, hget, hl]
  have hproc : ∀ (start stop : Nat) (data : List T), start ≤ stop → stop ≤ core.data.length →
      data.length = core.data.length →
      ∃ d, processChunk none (eng.batch.map (BatchOpPtr.byValue heap c core)) start stop data
          = .done d ∧
        d.length = core.data.length ∧
        ∀ j, d.getD j default =
          if start ≤ j ∧ j < stop then
            cellFold (eng.batch.map (BatchOpPtr.byValue heap c core)) j (data.getD j default)
          else data.getD j default := by
    intro start stop data h1 h2 h3
    obtain ⟨d, e, l, g⟩ := processChunk_scalar (eng.batch.map (BatchOpPtr.byValue heap c core))
      start stop data h1 (by omega) (fun op ho => by have := hlen op ho; omega)
    exact ⟨d, e, by omega, g⟩
  have hthreads : 0 < (core.data.length + max (core.data.length / (if hc = 0 then 4 else hc)) 1024
      - 1) / max (core.data.length / (if hc = 0 then 4 else hc)) 1024 ∨ core.data.length ≤ 0 := by
    by_cases hN : 0 < core.data.length
    · exact Or.inl (num_threads_pos _ _ hchunk hN)
    · exact Or.inr (by omega)
  obtain ⟨nx, d, e, l, g⟩ := runThreads_cells none (eng.batch.map (BatchOpPtr.byValue heap c core))
    core.data.length _
    (fun j x => cellFold (eng.batch.map (BatchOpPtr.byValue heap c core)) j x) hchunk hproc _ 0
    core.data rfl hthreads
  have hrun := runThreadsPtr_sim c core heap eng.batch core.data.length _ hvalid _ 0
    (heap.set c core) core nx d (heap_set_get heap c core core hcore)
    (fun a ha => heap_set_other heap c a core ha) e
  have hcells : ∀ i, i < core.data.length →
      d[i]? = some (cellFoldPtr heap c eng.batch i (core.data.getD i default)) := by
    intro i hi
    have hg := g i
    have hr : 0 ≤ i ∧ i < core.data.length := ⟨Nat.zero_le i, hi⟩
    rw [if_pos hr, cellFold_byValue heap c core i eng.batch _ hvalid] at hg
    rw [← hg]
    have hi2 : i < d.length := by omega
    simp [List.getD_eq_getElem?_getD, hi2]
  refine ⟨d, ?_, l, hcells, ?_⟩
  · simp only [LazyEvalPtr.execute, hempty, hcore, hfold, ne_eq, not_true_eq_false, if_false,
      hrun, heap_set_set]
    simp
  · intro hno i hi
    rw [hcells i hi, cellFoldPtr_no_alias heap c i eng.batch _ hno]

/-- The instance of C2 on the heap with the core `[1, 2, 3]` at address 0 and
`[1, 1, 1]` at address 1, with the queue `add` against address 1, then `add`
against the core itself. -/
theorem execute_scalar_same_shape_ptr_witness :
    heapTwo[0]? = some core123 ∧ queueThenSelf.batch ≠ [] ∧
    (∀ op ∈ queueThenSelf.batch, ∃ p, heapTwo[op.tensor]? = some p ∧
      p.shape = core123.shape ∧ p.data.length = core123.data.length) ∧
    ∃ data1, LazyEvalPtr.execute none 8 queueThenSelf heapTwo 0 =
        .done (heapTwo.set 0 { core123 with data := data1 }, { batch := [] }) ∧
      data1.length = core123.data.length ∧
      (∀ i, i < core123.data.length →
        data1[i]? = some (cellFoldPtr heapTwo 0 queueThenSelf.batch i (core123.data.getD i default))) ∧
      ((∀ op ∈ queueThenSelf.batch, op.tensor ≠ 0) → ∀ i, i < core123.data.length →
        data1[i]? =
          some (cellFoldEnqueued heapTwo queueThenSelf.batch i (core123.data.getD i default))) :=
  have h0 : heapTwo[0]? = some core123 := rfl
  have h1 : queueThenSelf.batch ≠ [] := by simp [queueThenSelf, LazyEvalPtr.add]
  have h2 : ∀ op ∈ queueThenSelf.batch, ∃ p, heapTwo[op.tensor]? = some p ∧
      p.shape = core123.shape ∧ p.data.length = core123.data.length := by
    intro op ho
    simp [queueThenSelf, LazyEvalPtr.add] at ho
    rcases ho with h | h <;> subst h
    · exact ⟨_, rfl, rfl, rfl⟩
    · exact ⟨_, rfl, rfl, rfl⟩
  ⟨h0, h1, h2, execute_scalar_same_shape_ptr 8 queueThenSelf heapTwo 0 core123 h0 h1 h2⟩

/-- C2, as stated, fails when an operand is the core itself: with the core
`[1, 2, 3]` at address 0 and the queue of `x.add(x).add(x)`, every operand has the
shape and the data length of the core, `execute` produces `[4, 8, 12]` (each
`add` doubles the current cell), while the left fold over the operand cells
`[1, 2, 3]` that the claim describes gives `[3, 6, 9]`. -/
theorem execute_scalar_aliased_operand :
    (∀ op ∈ queueSelfTwice.batch, ∃ p, [core123][op.tensor]? = some p ∧
      p.shape = core123.shape ∧ p.data.length = core123.data.length) ∧
    LazyEvalPtr.execute none 8 queueSelfTwice [core123] 0 =
      .done ([{ core123 with data := [4, 8, 12] }], { batch := [] }) ∧
    (List.range 3).map
      (fun i => cellFoldEnqueued [core123] queueSelfTwice.batch i (core123.data.getD i 0))
      = [3, 6, 9] ∧
    (List.range 3).map
      (fun i => cellFoldPtr [core123] 0 queueSelfTwice.batch i (core123.data.getD i 0))
      = [4, 8, 12] := by
  refine ⟨?_, rfl, rfl, rfl⟩
  intro op ho
  simp [queueSelfTwice, LazyEvalPtr.add] at ho
  subst ho
  exact ⟨_, rfl, rfl, rfl⟩

/-! ## Operands of a different shape, and the vectorised path -/

/-- C3, evaluated on its example: with the core `[1, 2, 3]` and the queue `add`
against an operand of shape `[1]`, `mul` against an operand of shape `[1]`, the
target shape is the core shape, and the compute pass reads `operand.data[1]`,
past the end of the operand. -/
theorem execute_scalar_operand_unmapped :
    foldTarget core123.shape queueScalarOperands.batch = .ok [3] ∧
    LazyEval.execute none 8 queueScalarOperands core123 = .undefined_read ∧
    (List.range 3).map (fun i => cellFold queueScalarOperands.batch 0 (core123.data.getD i 0))
      = [4, 6, 8] :=
  ⟨rfl, rfl, rfl⟩

/-- C4, evaluated on a failing input: for 32-bit `int` the queue `mul [2, 2, 2, 2]`
on the core `[1, 2, 3, 4]` produces `[3, 4, 5, 6]` (the NEON loop adds), while the
scalar reference gives `[2, 4, 6, 8]`. -/
theorem execute_int_neon_ignores_func :
    LazyEval.execute (some vaddq_s32) 8 queueMul core1234 =
      .done ({ core1234 with data := [3, 4, 5, 6] }, { batch := [] }) ∧
    scalarReference queueMul.batch core1234.data = [2, 4, 6, 8] ∧
    LazyEval.execute none 8 queueMul core1234 =
      .done ({ core1234 with data := [2, 4, 6, 8] }, { batch := [] }) :=
  ⟨rfl, rfl, rfl⟩

/-! ## Shape errors -/

theorem broadcastLoop_error_msg (a b : List Nat) (n : Nat) :
    ∀ (k i : Nat) (result : List Nat) (msg : String),
      broadcastLoop a b n k i result = .error msg → msg = broadcastError := by
  intro k
  induction k with
  | zero =>
    intro i result msg h
    cases h
  | succ k ih =>
    intro i result msg h
    unfold broadcastLoop at h
    by_cases hc : (if i < n - a.length then 1 else a.getD (i - (n - a.length)) 0) =
        (if i < n - b.length then 1 else b.getD (i - (n - b.length)) 0) ∨
        (if i < n - a.length then 1 else a.getD (i - (n - a.length)) 0) = 1 ∨
        (if i < n - b.length then 1 else b.getD (i - (n - b.length)) 0) = 1
    · simp only [hc, if_true] at h
      exact ih _ _ _ h
    · simp only [hc, if_false] at h
      cases h
      rfl

theorem foldTarget_error_msg {T : Type} :
    ∀ (batch : List (BatchOp T)) (s : List Nat) (msg : String),
      foldTarget s batch = .error msg → msg = broadcastError := by
  intro batch
  induction batch with
  | nil =>
    intro s msg h
    cases h
  | cons op rest ih =>
    intro s msg h
    unfold foldTarget at h
    cases hb : broadcast_shapes s op.tensor.shape with
    | ok t =>
      rw [hb] at h
      exact ih t msg h
    | error e =>
      rw [hb] at h
      have he : e = msg := by cases h; rfl
      rw [← he]
      exact broadcastLoop_error_msg _ _ _ _ _ _ _ hb

/-- C5. `LazyEval::execute` is atomic on shape errors: whenever folding the core
shape with the queued operand shapes fails, the call ends with the exception of
`broadcast_shapes`, and the core (data, shape, strides) and the queue it leaves
are those it was given. -/
theorem execute_shape_error_atomic {T : Type} [Inhabited T] (neon : Option (T → T → T))
    (hc : Nat) (eng : LazyEval T) (core : Pv T) (msg : String)
    (hfail : foldTarget core.shape eng.batch = .error msg) :
    LazyEval.execute neon hc eng core = .threw broadcastError (core, eng) ∧
    msg = broadcastError := by
  have hmsg := foldTarget_error_msg eng.batch core.shape msg hfail
  refine ⟨?_, hmsg⟩
  have hempty : eng.batch.isEmpty = false := by
    cases hb : eng.batch with
    | nil =>
      rw [hb] at hfail
      cases hfail
    | cons _ _ => rfl
  simp only [LazyEval.execute, hempty, hfail, hmsg]
  simp

/-- The instance of C5 on a core of shape `[2, 3]` and an operand of shape `[4]`. -/
theorem execute_shape_error_atomic_witness :
    foldTarget core23.shape queueShape4.batch = .error broadcastError ∧
    LazyEval.execute none 8 queueShape4 core23 = .threw broadcastError (core23, queueShape4) ∧
    broadcastError = broadcastError :=
  ⟨rfl, execute_shape_error_atomic none 8 queueShape4 core23 broadcastError rfl⟩

/-! ## Materialization -/

theorem foldl_mul_eq_prod (l : List Nat) (a : Nat) :
    l.foldl (fun acc s => acc * s) a = a * l.prod := by
  induction l generalizing a with
  | nil => simp
  | cons x xs ih => simp [List.foldl_cons, ih, Nat.mul_assoc]

theorem decomposeLoop_getD (target : List Nat) :
    ∀ (d tmp : Nat) (coord : List Nat), d ≤ target.length → coord.length = target.length →
      (decomposeLoop target d tmp coord).length = target.length ∧
      ∀ j, (decomposeLoop target d tmp coord).getD j 0 =
        if j < d then (tmp / ((target.take d).drop (j + 1)).prod) % target.getD j 0
        else coord.getD j 0 := by
  intro d
  induction d with
  | zero =>
    intro tmp coord _ hlen
    refine ⟨hlen, ?_⟩
    intro j
    simp [decomposeLoop]
  | succ d ih =>
    intro tmp coord hd hlen
    have hdl : d < target.length := by omega
    obtain ⟨l1, g1⟩ := ih (tmp / target.getD d 0) (coord.set d (tmp % target.getD d 0))
      (by omega) (by simpa using hlen)
    unfold decomposeLoop
    refine ⟨l1, ?_⟩
    intro j
    rw [g1 j]
    by_cases hj : j < d
    · have hj2 : j < d + 1 := by omega
      rw [if_pos hj, if_pos hj2]
      have htake : target.take (d + 1) = target.take d ++ [target.getD d 0] := by
        rw [List.take_succ]
        simp [List.getD_eq_getElem?_getD, List.getElem?_eq_getElem hdl]
      have hdrop : (target.take (d + 1)).drop (j + 1) =
          (target.take d).drop (j + 1) ++ [target.getD d 0] := by
        rw [htake, List.drop_append_of_le_length]
        simp
        omega
      rw [hdrop, List.prod_append, List.prod_singleton, Nat.div_div_eq_div_mul,
        Nat.mul_comm (target.getD d 0)]
    · rw [if_neg hj]
      by_cases hjd : j = d
      · subst hjd
        have h1 : j < j + 1 := by omega
        have h2 : (target.take (j + 1)).drop (j + 1) = [] := by
          apply List.drop_eq_nil_of_le
          simp
        have h3 : j < coord.length := by omega
        rw [if_pos h1, h2]
        simp [List.getD_eq_getElem?_getD, List.getElem?_set, h3]
      · have h1 : ¬ j < d + 1 := by omega
        have h2 : d ≠ j := fun h => hjd h.symm
        rw [if_neg h1]
        simp [List.getD_eq_getElem?_getD, List.getElem?_set, h2]

theorem zeroLoop_getD (cshape : List Nat) (shift p : Nat) :
    ∀ (k d : Nat) (sc : List Nat),
      (∀ e, d ≤ e → e < d + k → cshape.getD e 0 = 1 → p ≠ e + shift) →
      (zeroLoop cshape shift k d sc).getD p 0 = sc.getD p 0 := by
  intro k
  induction k with
  | zero =>
    intro d sc _
    rfl
  | succ k ih =>
    intro d sc h
    unfold zeroLoop
    rw [ih (d + 1) _ (fun e h1 h2 => h e (by omega) (by omega))]
    by_cases h1 : cshape.getD d 0 = 1
    · have hp := h d (Nat.le_refl d) (by omega) h1
      have hp2 : d + shift ≠ p := fun e => hp e.symm
      rw [if_pos h1]
      simp [List.getD_eq_getElem?_getD, List.getElem?_set, hp2]
    · rw [if_neg h1]

theorem srcIndexLoop_eq (cshape cstrides : List Nat) (shift : Nat) (sc : List Nat) :
    ∀ (k d si : Nat), d + k ≤ cstrides.length →
      srcIndexLoop cshape cstrides shift sc k d si =
        some (si + ((List.range' d k).map (fun e =>
          (if cshape.getD e 0 = 1 then 0 else sc.getD (e + shift) 0) *
            cstrides.getD e 0)).sum) := by
  intro k
  induction k with
  | zero =>
    intro d si _
    simp [srcIndexLoop]
  | succ k ih =>
    intro d si h
    have hd : d < cstrides.length := by omega
    unfold srcIndexLoop
    rw [List.getElem?_eq_getElem hd]
    simp only
    rw [ih (d + 1) _ (by omega)]
    simp [List.range'_succ, List.getD_eq_getElem?_getD, List.getElem?_eq_getElem hd,
      Nat.add_assoc]

/-- The index computed for `idx` by the three inner loops of the materialization
is the source index of the materialization rule. -/
theorem srcIndex_eq_sourceIndex (cshape cstrides target : List Nat) (idx : Nat)
    (coord : List Nat) (hrank : cshape.length ≤ target.length)
    (hstr : cshape.length ≤ cstrides.length) (hcoord : coord.length = target.length) :
    srcIndexLoop cshape cstrides (target.length - cshape.length)
      (zeroLoop cshape (target.length - cshape.length) cshape.length 0
        (decomposeLoop target target.length idx coord)) cshape.length 0 0 =
      some (sourceIndex cshape cstrides target idx) := by
  rw [srcIndexLoop_eq cshape cstrides _ _ cshape.length 0 0 (by omega)]
  simp only [sourceIndex, Nat.zero_add, List.range_eq_range']
  congr 2
  apply List.map_congr_left
  intro e he
  have he2 : e < cshape.length := by
    have := List.mem_range'_1.mp he
    omega
  by_cases h1 : cshape.getD e 0 = 1
  · rw [if_pos h1, if_pos h1]
  · rw [if_neg h1, if_neg h1]
    congr 1
    rw [zeroLoop_getD cshape _ _ cshape.length 0 _ (by
      intro e2 _ _ h2 heq
      have : e = e2 := by omega
      subst this
      exact h1 h2)]
    have hd := (decomposeLoop_getD target target.length idx coord (Nat.le_refl _) hcoord).2
      (e + (target.length - cshape.length))
    have hlt : e + (target.length - cshape.length) < target.length := by omega
    rw [hd, if_pos hlt, List.take_length]
    rfl

theorem fillLoop_getD {T : Type} [Inhabited T] (core : Pv T) (target : List Nat)
    (hrank : core.shape.length ≤ target.length)
    (hstr : core.shape.length ≤ core.strides.length) :
    ∀ (k idx : Nat) (coord : List Nat) (nd : List T),
      coord.length = target.length → idx + k ≤ nd.length →
      (∀ i, idx ≤ i → i < idx + k →
        sourceIndex core.shape core.strides target i < core.data.length) →
      ∃ coord1 nd1, fillLoop core target k idx (coord, nd) = some (coord1, nd1) ∧
        nd1.length = nd.length ∧
        ∀ j, nd1.getD j default =
          if idx ≤ j ∧ j < idx + k then
            core.data.getD (sourceIndex core.shape core.strides target j) default
          else nd.getD j default := by
  intro k
  induction k with
  | zero =>
    intro idx coord nd _ _ _
    refine ⟨coord, nd, rfl, rfl, ?_⟩
    intro j
    have : ¬ (idx ≤ j ∧ j < idx + 0) := by omega
    rw [if_neg this]
  | succ k ih =>
    intro idx coord nd hcoord hlen hin
    have hsi := srcIndex_eq_sourceIndex core.shape core.strides target idx coord hrank hstr hcoord
    have hb := hin idx (Nat.le_refl _) (by omega)
    have hcl := (decomposeLoop_getD target target.length idx coord (Nat.le_refl _) hcoord).1
    unfold fillLoop
    simp only [hsi, List.getElem?_eq_getElem hb]
    obtain ⟨c1, n1, e1, l1, g1⟩ := ih (idx + 1)
      (decomposeLoop target target.length idx coord)
      (nd.set idx (core.data[sourceIndex core.shape core.strides target idx]))
      hcl (by simp; omega) (fun i h1 h2 => hin i (by omega) (by omega))
    refine ⟨c1, n1, e1, by simpa using l1, ?_⟩
    intro j
    rw [g1 j]
    by_cases hj : j = idx
    · subst hj
      have h1 : ¬ (j + 1 ≤ j ∧ j < j + 1 + k) := by omega
      have h2 : j ≤ j ∧ j < j + (k + 1) := by omega
      have h3 : j < nd.length := by omega
      rw [if_neg h1, if_pos h2]
      simp [List.getD_eq_getElem?_getD, List.getElem?_set, h3, hb]
    · have hne : idx ≠ j := fun h => hj h.symm
      by_cases hr : idx + 1 ≤ j ∧ j < idx + 1 + k
      · have h2 : idx ≤ j ∧ j < idx + (k + 1) := by omega
        rw [if_pos hr, if_pos h2]
      · have h2 : ¬ (idx ≤ j ∧ j < idx + (k + 1)) := by omega
        rw [if_neg hr, if_neg h2]
        simp [List.getD_eq_getElem?_getD, List.getElem?_set, hne]

theorem runTasks_getD {R T : Type} [Inhabited R] (batch : List (Pv T → Option R)) (core : Pv T)
    (vals : List R) (hdef : batch.map (fun g => g core) = vals.map some) :
    ∀ (order : List Nat) (results : List R), (∀ i ∈ order, i < batch.length) →
      results.length = batch.length →
      ∃ r, runTasks batch core order results = .done r ∧ r.length = batch.length ∧
        ∀ j, r.getD j default =
          if j ∈ order then vals.getD j default else results.getD j default := by
  have hvl : vals.length = batch.length := by
    have := congrArg List.length hdef
    simpa using this.symm
  intro order
  induction order with
  | nil =>
    intro results _ hlen
    refine ⟨results, rfl, hlen, ?_⟩
    intro j
    simp
  | cons i rest ih =>
    intro results hord hlen
    have hi : i < batch.length := hord i (List.mem_cons_self _ _)
    have hiv : i < vals.length := by omega
    have hgi : (batch.map (fun g => g core))[i]? = (vals.map some)[i]? := by rw [hdef]
    rw [List.getElem?_map, List.getElem?_map, List.getElem?_eq_getElem hi,
      List.getElem?_eq_getElem hiv] at hgi
    simp only [Option.map_some'] at hgi
    have hgi2 : batch[i] core = some vals[i] := by
      injection hgi
    obtain ⟨r, e, l, g⟩ := ih (results.set i vals[i])
      (fun k hk => hord k (List.mem_cons_of_mem _ hk)) (by simpa using hlen)
    refine ⟨r, ?_, l, ?_⟩
    · unfold runTasks
      rw [List.getElem?_eq_getElem hi]
      simp only [hgi2, e]
    · intro j
      rw [g j]
      by_cases hj : j ∈ rest
      · have hj2 : j ∈ i :: rest := List.mem_cons_of_mem _ hj
        rw [if_pos hj, if_pos hj2]
      · rw [if_neg hj]
        by_cases hji : j = i
        · subst hji
          have hj2 : j ∈ j :: rest := List.mem_cons_self _ _
          have h3 : j < results.length := by omega
          rw [if_pos hj2]
          simp [List.getD_eq_getElem?_getD, List.getElem?_set, h3, hiv]
        · have hj2 : ¬ j ∈ i :: rest := by
            intro h
            rcases List.mem_cons.mp h with h | h
            · exact hji h
            · exact hj h
          have hne : i ≠ j := fun h => hji h.symm
          rw [if_neg hj2]
          simp [List.getD_eq_getElem?_getD, List.getElem?_set, hne]

/-- C7. `LazyEvalStat::execute` returns the results in enqueue order: for every
storage, every queue of reductions that are defined on it (their values being
`vals`, in queue order) and every order in which the tasks complete, the call
returns exactly `vals` (so result `i` is the value of the `i`-th queued
reduction and there are as many results as reductions), and clears the queue
when `clear_after` is set.  Enqueuing `max` then `min` on `[3, 1, 4, 1, 5]`
returns `[5, 1]` in both completion orders. -/
theorem stat_execute_enqueue_order {R T : Type} [Inhabited R] (eng : LazyEvalStat R T)
    (core : Pv T) (clear_after : Bool) (order : List Nat) (vals : List R)
    (hperm : order.Perm (List.range eng.batch.length))
    (hdef : eng.batch.map (fun g => g core) = vals.map some) :
    LazyEvalStat.execute eng core clear_after order =
        .done (vals, if clear_after then { batch := [] } else eng) ∧
    vals.length = eng.batch.length ∧
    (∀ (i : Nat) (g : Pv T → Option R), eng.batch[i]? = some g → g core = vals[i]?) ∧
    LazyEvalStat.execute queueMaxMin coreStat true [0, 1] = .done ([5, 1], { batch := [] }) ∧
    LazyEvalStat.execute queueMaxMin coreStat true [1, 0] = .done ([5, 1], { batch := [] }) := by
  have hvl : vals.length = eng.batch.length := by
    have := congrArg List.length hdef
    simpa using this.symm
  refine ⟨?_, hvl, ?_, rfl, rfl⟩
  · obtain ⟨r, e, l, g⟩ := runTasks_getD eng.batch core vals hdef order
      (List.replicate eng.batch.length default)
      (fun i hi => List.mem_range.mp (hperm.mem_iff.mp hi)) (by simp)
    have hr : r = vals := by
      apply list_eq_of_getD default r vals (by omega)
      intro j hj
      have hmem : j ∈ order := hperm.mem_iff.mpr (List.mem_range.mpr (by omega))
      rw [g j, if_pos hmem]
    simp only [LazyEvalStat.execute, e, hr]
  · intro i g hg
    have hgi : (eng.batch.map (fun g => g core))[i]? = (vals.map some)[i]? := by rw [hdef]
    rw [List.getElem?_map, List.getElem?_map, hg] at hgi
    simp only [Option.map_some'] at hgi
    cases hv : vals[i]? with
    | none => rw [hv] at hgi; cases hgi
    | some v =>
      rw [hv] at hgi
      simp only [Option.map_some'] at hgi
      injection hgi


/-- The instance of C7 with `min` completing before `max`. -/
theorem stat_execute_enqueue_order_witness :
    [1, 0].Perm (List.range queueMaxMin.batch.length) ∧
    queueMaxMin.batch.map (fun g => g coreStat) = [5, 1].map some ∧
    LazyEvalStat.execute queueMaxMin coreStat true [1, 0] =
      .done ([5, 1], if true = true then { batch := [] } else queueMaxMin) :=
  have h1 : [1, 0].Perm (List.range queueMaxMin.batch.length) := List.Perm.swap 0 1 []
  have h2 : queueMaxMin.batch.map (fun g => g coreStat) = [5, 1].map some := rfl
  ⟨h1, h2, (stat_execute_enqueue_order queueMaxMin coreStat true [1, 0] [5, 1] h1 h2).1⟩

/-! ## `argmax` and `argmin` -/

theorem maxElementScan_spec {T : Type} [LinearOrder T] :
    ∀ (ys pre : List T) (largest : Nat) (v : T), pre[largest]? = some v →
      (∀ x ∈ pre, x ≤ v) → (∀ j x, j < largest → pre[j]? = some x → x < v) →
      ∃ w, (pre ++ ys)[maxElementScan ys pre.length largest v]? = some w ∧
        (∀ x ∈ pre ++ ys, x ≤ w) ∧
        ∀ j x, j < maxElementScan ys pre.length largest v → (pre ++ ys)[j]? = some x → x < w := by
  intro ys
  induction ys with
  | nil =>
    intro pre largest v h1 h2 h3
    refine ⟨v, ?_, ?_, ?_⟩
    · simpa [maxElementScan] using h1
    · simpa using h2
    · intro j x hj hx
      simp only [maxElementScan] at hj
      simp only [List.append_nil] at hx
      exact h3 j x hj hx
  | cons y ys ih =>
    intro pre largest v h1 h2 h3
    have hl : largest < pre.length := by
      by_contra hc
      rw [List.getElem?_eq_none (by omega)] at h1
      cases h1
    have happ : pre ++ y :: ys = (pre ++ [y]) ++ ys := by simp
    have hlen : (pre ++ [y]).length = pre.length + 1 := by simp
    unfold maxElementScan
    by_cases hlt : v < y
    · rw [if_pos hlt, happ, ← hlen]
      apply ih (pre ++ [y]) pre.length y
      · simp
      · intro x hx
        rcases List.mem_append.mp hx with h | h
        · exact le_of_lt (lt_of_le_of_lt (h2 x h) hlt)
        · simp at h
          rw [h]
      · intro j x hj hx
        rw [List.getElem?_append_left hj] at hx
        exact lt_of_le_of_lt (h2 x (List.getElem?_mem hx)) hlt
    · rw [if_neg hlt, happ, ← hlen]
      apply ih (pre ++ [y]) largest v
      · rw [List.getElem?_append_left hl]
        exact h1
      · intro x hx
        rcases List.mem_append.mp hx with h | h
        · exact h2 x h
        · simp at h
          rw [h]
          exact not_lt.mp hlt
      · intro j x hj hx
        rw [List.getElem?_append_left (by omega)] at hx
        exact h3 j x hj hx

theorem minElementScan_spec {T : Type} [LinearOrder T] :
    ∀ (ys pre : List T) (smallest : Nat) (v : T), pre[smallest]? = some v →
      (∀ x ∈ pre, v ≤ x) → (∀ j x, j < smallest → pre[j]? = some x → v < x) →
      ∃ w, (pre ++ ys)[minElementScan ys pre.length smallest v]? = some w ∧
        (∀ x ∈ pre ++ ys, w ≤ x) ∧
        ∀ j x, j < minElementScan ys pre.length smallest v → (pre ++ ys)[j]? = some x → w < x := by
  intro ys
  induction ys with
  | nil =>
    intro pre smallest v h1 h2 h3
    refine ⟨v, ?_, ?_, ?_⟩
    · simpa [minElementScan] using h1
    · simpa using h2
    · intro j x hj hx
      simp only [minElementScan] at hj
      simp only [List.append_nil] at hx
      exact h3 j x hj hx
  | cons y ys ih =>
    intro pre smallest v h1 h2 h3
    have hl : smallest < pre.length := by
      by_contra hc
      rw [List.getElem?_eq_none (by omega)] at h1
      cases h1
    have happ : pre ++ y :: ys = (pre ++ [y]) ++ ys := by simp
    have hlen : (pre ++ [y]).length = pre.length + 1 := by simp
    unfold minElementScan
    by_cases hlt : y < v
    · rw [if_pos hlt, happ, ← hlen]
      apply ih (pre ++ [y]) pre.length y
      · simp
      · intro x hx
        rcases List.mem_append.mp hx with h | h
        · exact le_of_lt (lt_of_lt_of_le hlt (h2 x h))
        · simp at h
          rw [h]
      · intro j x hj hx
        rw [List.getElem?_append_left hj] at hx
        exact lt_of_lt_of_le hlt (h2 x (List.getElem?_mem hx))
    · rw [if_neg hlt, happ, ← hlen]
      apply ih (pre ++ [y]) smallest v
      · rw [List.getElem?_append_left hl]
        exact h1
      · intro x hx
        rcases List.mem_append.mp hx with h | h
        · exact h2 x h
        · simp at h
          rw [h]
          exact not_lt.mp hlt
      · intro j x hj hx
        rw [List.getElem?_append_left (by omega)] at hx
        exact h3 j x hj hx

theorem max_element_spec {T : Type} [LinearOrder T] (data : List T) (hne : data ≠ []) :
    ∃ w, data[max_element data]? = some w ∧ (∀ x ∈ data, x ≤ w) ∧
      ∀ j x, j < max_element data → data[j]? = some x → x < w := by
  cases data with
  | nil => exact absurd rfl hne
  | cons x xs =>
    have h := maxElementScan_spec xs [x] 0 x rfl (by simp) (by intro j y hj; omega)
    simpa [max_element] using h

theorem min_element_spec {T : Type} [LinearOrder T] (data : List T) (hne : data ≠ []) :
    ∃ w, data[min_element data]? = some w ∧ (∀ x ∈ data, w ≤ x) ∧
      ∀ j x, j < min_element data → data[j]? = some x → w < x := by
  cases data with
  | nil => exact absurd rfl hne
  | cons x xs =>
    have h := minElementScan_spec xs [x] 0 x rfl (by simp) (by intro j y hj; omega)
    simpa [min_element] using h

theorem argmax_eq {T : Type} [LinearOrder T] (a : Pv T) :
    Ops.argmax a = .done (max_element a.data) := rfl

theorem argmin_eq {T : Type} [LinearOrder T] (a : Pv T) :
    Ops.argmin a = .done (min_element a.data) := rfl

/-- C8. On every non-empty storage `Ops::argmax` returns an index `i` in range
whose element `v` is the maximum of the data, and no index before `i` holds a
value equal to `v`; `Ops::argmin` does the same for the minimum.  `argmax` on
`[3, 5, 5, 2]` returns 1. -/
theorem argmax_argmin_first_extremal {T : Type} [LinearOrder T] (a : Pv T)
    (hne : a.data ≠ []) :
    (∃ i v, Ops.argmax a = .done i ∧ a.data[i]? = some v ∧ (∀ x ∈ a.data, x ≤ v) ∧
      ∀ j, j < i → a.data[j]? ≠ some v) ∧
    (∃ i v, Ops.argmin a = .done i ∧ a.data[i]? = some v ∧ (∀ x ∈ a.data, v ≤ x) ∧
      ∀ j, j < i → a.data[j]? ≠ some v) ∧
    Ops.argmax ({ data := [3, 5, 5, 2], shape := [4], strides := [1] } : Pv Int) = .done 1 := by
  refine ⟨?_, ?_, rfl⟩
  · obtain ⟨w, h1, h2, h3⟩ := max_element_spec a.data hne
    refine ⟨max_element a.data, w, argmax_eq a, h1, h2, ?_⟩
    intro j hj heq
    exact lt_irrefl w (h3 j w hj heq)
  · obtain ⟨w, h1, h2, h3⟩ := min_element_spec a.data hne
    refine ⟨min_element a.data, w, argmin_eq a, h1, h2, ?_⟩
    intro j hj heq
    exact lt_irrefl w (h3 j w hj heq)


/-- The instance of C8 on `[3, 5, 5, 2]`. -/
theorem argmax_argmin_first_extremal_witness :
    coreTie.data ≠ [] ∧
    (∃ i v, Ops.argmax coreTie = .done i ∧ coreTie.data[i]? = some v ∧
      (∀ x ∈ coreTie.data, x ≤ v) ∧ ∀ j, j < i → coreTie.data[j]? ≠ some v) :=
  have h : coreTie.data ≠ [] := by simp [coreTie]
  ⟨h, (argmax_argmin_first_extremal coreTie h).1⟩

/-! ## Row-major strides -/

theorem computeStridesLoop_getD (shape : List Nat) :
    ∀ (k : Nat) (st : List Nat), st.length = shape.length → k < shape.length →
      (∀ j, k ≤ j → j < shape.length → st.getD j 0 = (shape.drop (j + 1)).prod) →
      (computeStridesLoop shape k st).length = shape.length ∧
      ∀ j, j < shape.length →
        (computeStridesLoop shape k st).getD j 0 = (shape.drop (j + 1)).prod := by
  intro k
  induction k with
  | zero =>
    intro st hlen _ h
    exact ⟨hlen, fun j hj => h j (Nat.zero_le j) hj⟩
  | succ i ih =>
    intro st hlen hk h
    unfold computeStridesLoop
    apply ih _ (by simpa using hlen) (by omega)
    intro j hj1 hj2
    by_cases hji : j = i
    · subst hji
      have h1 : j < st.length := by omega
      have h2 := h (j + 1) (Nat.le_refl _) hk
      have h3 : shape.drop (j + 1) = shape.getD (j + 1) 0 :: shape.drop (j + 1 + 1) := by
        rw [List.drop_eq_getElem_cons hk]
        simp [List.getD_eq_getElem?_getD, List.getElem?_eq_getElem hk]
      rw [h3, List.prod_cons, ← h2, Nat.mul_comm]
      simp [List.getD_eq_getElem?_getD, List.getElem?_set, h1]
    · have hne : i ≠ j := fun e => hji e.symm
      have h2 := h j (by omega) hj2
      rw [← h2]
      simp [List.getD_eq_getElem?_getD, List.getElem?_set, hne]

theorem vresize_length {α : Type} (xs : List α) (n : Nat) (v : α) :
    (vresize xs n v).length = n := by
  simp [vresize]
  omega

/-- `Pv::computeStrides` yields the row-major strides as soon as the entry it
never writes, the last one of the resized vector, is 1. -/
theorem computeStrides_rowMajor {T : Type} (p : Pv T)
    (hlast : (vresize p.strides p.shape.length 1).getD (p.shape.length - 1) 1 = 1) :
    p.computeStrides.strides = rowMajorStrides p.shape := by
  simp only [Pv.computeStrides]
  by_cases hn : p.shape.length = 0
  · have hs : p.shape = [] := List.eq_nil_of_length_eq_zero hn
    simp [hs, vresize, computeStridesLoop, rowMajorStrides]
  · have hl := vresize_length p.strides p.shape.length 1
    obtain ⟨l1, g1⟩ := computeStridesLoop_getD p.shape (p.shape.length - 1)
      (vresize p.strides p.shape.length 1) hl (by omega) (by
        intro j hj1 hj2
        have hj : j = p.shape.length - 1 := by omega
        have hd : p.shape.drop (j + 1) = [] := List.drop_eq_nil_of_le (by omega)
        have hjl : j < (vresize p.strides p.shape.length 1).length := by omega
        have e1 : (vresize p.strides p.shape.length 1).getD j 0 =
            (vresize p.strides p.shape.length 1)[j] := by
          simp [List.getD_eq_getElem?_getD, List.getElem?_eq_getElem hjl]
        have e2 : (vresize p.strides p.shape.length 1).getD j 1 =
            (vresize p.strides p.shape.length 1)[j] := by
          simp [List.getD_eq_getElem?_getD, List.getElem?_eq_getElem hjl]
        rw [hd, List.prod_nil, e1, ← e2, hj]
        exact hlast)
    apply list_eq_of_getD 0 _ _ (by simp [rowMajorStrides, l1])
    intro j hj
    rw [g1 j (by omega)]
    have hj2 : j < p.shape.length := by omega
    simp [rowMajorStrides, List.getD_eq_getElem?_getD, hj2]

/-- A fresh (empty) stride vector, or one of at most the new rank whose last
entry is 1, satisfies the condition of `computeStrides_rowMajor`. -/
theorem vresize_last_one (st : List Nat) (n : Nat)
    (h : st.length < n ∨ st.getD (n - 1) 1 = 1) :
    (vresize st n 1).getD (n - 1) 1 = 1 := by
  unfold vresize
  by_cases hlt : st.length < n
  · have h1 : (st.take n).length ≤ n - 1 := by simp; omega
    rw [List.getD_eq_getElem?_getD, List.getElem?_append_right h1]
    by_cases h2 : n - 1 - (st.take n).length < n - st.length
    · simp [h2]
    · simp [h2]
  · rcases h with h | h
    · exact absurd h hlt
    · have h0 : n - st.length = 0 := by omega
      rw [h0]
      simp only [List.replicate_zero, List.append_nil]
      by_cases hn : n = 0
      · subst hn
        simp
      · have h1 : n - 1 < n := by omega
        rw [List.getD_eq_getElem?_getD, List.getElem?_take_of_lt h1,
          ← List.getD_eq_getElem?_getD]
        exact h

/-! ## Reshape -/

/-- The running product in `size_t` is the exact product modulo `2 ^ 64`. -/
theorem foldl_mul_mod_eq (l : List Nat) (a : Nat) :
    l.foldl (fun acc d => (acc * d) % sizeModulus) (a % sizeModulus) =
      (a * l.prod) % sizeModulus := by
  induction l generalizing a with
  | nil => simp
  | cons x xs ih =>
    rw [List.foldl_cons, Nat.mod_mul_mod, ih (a * x), List.prod_cons, Nat.mul_assoc]

theorem sizeProduct_eq (l : List Nat) :
    l.foldl (fun acc d => (acc * d) % sizeModulus) 1 = l.prod % sizeModulus := by
  have h := foldl_mul_mod_eq l 1
  have h1 : 1 % sizeModulus = 1 := by decide
  rw [h1, Nat.one_mul] at h
  exact h

theorem reshapeInPlace_eq {T : Type} (a : Pv T) (nw_shp : List Nat) :
    Ops.reshapeInPlace a nw_shp =
      if nw_shp.prod % sizeModulus ≠ a.shape.prod % sizeModulus then .threw reshapeError a
      else .done (Pv.computeStrides { a with shape := nw_shp }) := by
  simp only [Ops.reshapeInPlace, sizeProduct_eq]

/-- The in-place reshape does produce row-major strides when the stride vector
it starts from is shorter than the new rank or holds 1 at the new last position. -/
theorem reshapeInPlace_rowMajor {T : Type} (a : Pv T) (nw_shp : List Nat)
    (hcount : nw_shp.prod = a.shape.prod)
    (hlast : a.strides.length < nw_shp.length ∨ a.strides.getD (nw_shp.length - 1) 1 = 1) :
    ∃ r, Ops.reshapeInPlace a nw_shp = .done r ∧ r.strides = rowMajorStrides nw_shp := by
  refine ⟨Pv.computeStrides { a with shape := nw_shp }, ?_, ?_⟩
  · rw [reshapeInPlace_eq]
    simp [hcount]
  · exact computeStrides_rowMajor _ (vresize_last_one a.strides nw_shp.length hlast)

/-- C10, evaluated on its example: the storage built by `Pv([2, 3], 0)` satisfies
the storage invariant, and the in-place reshape to `[6]` returns with the stride
vector `[3]`, while the row-major strides of `[6]` are `[1]`; the copying
overload gives `[1]`. -/
theorem reshapeInPlace_keeps_old_stride :
    core23 = { data := [0, 0, 0, 0, 0, 0], shape := [2, 3], strides := [3, 1] } ∧
    core23.strides = rowMajorStrides core23.shape ∧
    Ops.reshapeInPlace core23 [6] =
      .done { data := [0, 0, 0, 0, 0, 0], shape := [6], strides := [3] } ∧
    rowMajorStrides [6] = [1] ∧
    Ops.reshape core23 [6] =
      .ok { data := [0, 0, 0, 0, 0, 0], shape := [6], strides := [1] } :=
  ⟨rfl, rfl, rfl, rfl, rfl⟩

/-! ## Empty and consumed queues -/

/-- C15. Executing an empty batch is a no-op: for every core, every element-type
branch and every hardware concurrency, `LazyEval::execute` with no queued
operation returns at once with the core (data, shape and strides) it was given
and the queue still empty. -/
theorem execute_empty_batch {T : Type} [Inhabited T] (neon : Option (T → T → T)) (hc : Nat)
    (core : Pv T) :
    LazyEval.execute neon hc { batch := [] } core = .done (core, { batch := [] }) ∧
    ∀ eng : LazyEval T, eng.batch = [] → LazyEval.execute neon hc eng core = .done (core, eng) := by
  refine ⟨rfl, ?_⟩
  intro eng h
  cases eng with
  | mk batch =>
    simp only at h
    subst h
    rfl

theorem execute_done_batch {T : Type} [Inhabited T] (neon : Option (T → T → T)) (hc : Nat)
    (eng : LazyEval T) (core core1 : Pv T) (eng1 : LazyEval T)
    (h : LazyEval.execute neon hc eng core = .done (core1, eng1)) : eng1.batch = [] := by
  unfold LazyEval.execute at h
  by_cases hb : eng.batch.isEmpty = true
  · simp only [hb, if_true] at h
    injection h with h
    injection h with _ h2
    rw [← h2]
    exact List.isEmpty_iff.mp hb
  · simp only [hb] at h
    cases hf : foldTarget core.shape eng.batch with
    | error msg =>
      simp only [hf] at h
      cases h
    | ok target =>
      simp only [hf] at h
      cases hm : (if core.shape ≠ target then materialize core target else some core) with
      | none =>
        simp only [hm] at h
        cases h
      | some c1 =>
        simp only [hm] at h
        cases hr : runThreads neon eng.batch c1.data.length
            (max (c1.data.length / (if hc = 0 then 4 else hc)) 1024)
            ((c1.data.length + max (c1.data.length / (if hc = 0 then 4 else hc)) 1024 - 1) /
              max (c1.data.length / (if hc = 0 then 4 else hc)) 1024) (0, c1.data) with
        | done s =>
          obtain ⟨nx, d⟩ := s
          simp only [hr] at h
          injection h with h
          injection h with _ h2
          rw [← h2]
        | threw msg s =>
          simp only [hr] at h
          cases h
        | undefined_read =>
          simp only [hr] at h
          cases h
        | out_of_fuel =>
          simp only [hr] at h
          cases h

/-- C16. Queues are consumed exactly once: whenever `LazyEval::execute` returns
normally its queue is empty, and executing again at once returns the same core
and the empty queue; whenever `LazyEvalStat::execute` with the default
`clear_after = true` returns, its queue is empty.  Both calls do return on the
example queues. -/
theorem queues_consumed_once {T R : Type} [Inhabited T] [Inhabited R]
    (neon : Option (T → T → T)) (hc : Nat) (eng : LazyEval T) (core : Pv T)
    (seng : LazyEvalStat R T) (order : List Nat) :
    (∀ core1 eng1, LazyEval.execute neon hc eng core = .done (core1, eng1) →
      eng1.batch = [] ∧ LazyEval.execute neon hc eng1 core1 = .done (core1, eng1)) ∧
    (∀ results seng1, LazyEvalStat.execute seng core true order = .done (results, seng1) →
      seng1.batch = []) ∧
    (∃ core1, LazyEval.execute none 8 queueSameShape core123 = .done (core1, { batch := [] })) ∧
    LazyEvalStat.execute queueMaxMin coreStat true [0, 1] = .done ([5, 1], { batch := [] }) := by
  refine ⟨?_, ?_, ⟨_, rfl⟩, rfl⟩
  · intro core1 eng1 h
    have hb := execute_done_batch neon hc eng core core1 eng1 h
    refine ⟨hb, ?_⟩
    cases eng1 with
    | mk batch =>
      simp only at hb
      subst hb
      rfl
  · intro results seng1 h
    unfold LazyEvalStat.execute at h
    cases hr : runTasks seng.batch core order (List.replicate seng.batch.length default) with
    | done r =>
      simp only [hr] at h
      injection h with h
      injection h with _ h2
      rw [← h2]
      rfl
    | threw msg s =>
      simp only [hr] at h
      cases h
    | undefined_read =>
      simp only [hr] at h
      cases h
    | out_of_fuel =>
      simp only [hr] at h
      cases h

/-! ## Flat index and integer reductions -/

theorem foldl_add_eq_sum (l : List Int) (a : Int) :
    l.foldl (fun result v => result + v) a = a + l.sum := by
  induction l generalizing a with
  | nil => simp
  | cons x xs ih => simp [List.foldl_cons, ih, add_assoc]

/-- A wrapper that queues one reduction and executes at once returns the value of
that reduction. -/
theorem single_reduction {R T : Type} [Inhabited R] (f : Pv T → Option R) (a : Pv T) (v : R)
    (hf : f a = some v) :
    firstResult (LazyEvalStat.execute (LazyEvalStat.add { batch := [] } f) a true [0]) =
      .done v := by
  simp [LazyEvalStat.execute, LazyEvalStat.add, runTasks, hf, firstResult]

/-- C18. For the integer element type in exact arithmetic and every non-empty
storage: `Ops::sum` returns the sum of the flat data, `Ops::len` returns the
element count, and `Ops::mean` returns the quotient of the two under the
truncating division of C++. -/
theorem sum_len_mean_int (a : Pv Int) (hne : a.data ≠ []) :
    Ops.sum a = .done a.data.sum ∧
    Ops.len a = .done (Int.ofNat a.data.length) ∧
    Ops.mean a = .done (Int.tdiv a.data.sum (Int.ofNat a.data.length)) ∧
    ∃ s n, Ops.sum a = .done s ∧ Ops.len a = .done n ∧ Ops.mean a = .done (Int.tdiv s n) := by
  have hsum : Ops.sum a = .done a.data.sum := by
    have h : Ops.sum a = .done (a.data.foldl (fun result v => result + v) 0) := rfl
    rw [h, foldl_add_eq_sum, zero_add]
  have hlen : Ops.len a = .done (Int.ofNat a.data.length) := rfl
  have hn : ¬ (Int.ofNat a.data.length = 0) := by
    intro h
    have h0 : a.data.length = 0 := Int.ofNat.inj h
    exact hne (List.eq_nil_of_length_eq_zero h0)
  have hmean : Ops.mean a = .done (Int.tdiv a.data.sum (Int.ofNat a.data.length)) := by
    unfold Ops.mean
    apply single_reduction
    simp only [meanReduction, hn, if_false]
    rw [foldl_add_eq_sum, zero_add]
  exact ⟨hsum, hlen, hmean, _, _, hsum, hlen, hmean⟩

/-- The instance of C18 on `[3, -1, -7]`, whose mean `-5 / 3` truncates to `-1`. -/
theorem sum_len_mean_int_witness :
    coreNeg.data ≠ [] ∧
    Ops.sum coreNeg = .done (-5) ∧ Ops.len coreNeg = .done 3 ∧ Ops.mean coreNeg = .done (-1) ∧
    Ops.mean coreNeg = .done (Int.tdiv coreNeg.data.sum (Int.ofNat coreNeg.data.length)) :=
  have h : coreNeg.data ≠ [] := by simp [coreNeg]
  ⟨h, rfl, rfl, rfl, (sum_len_mean_int coreNeg h).2.2.1⟩

/-! ## Broadcasting seen from the right -/

theorem padLeftOnes_getD_dimFromRight (n : Nat) (s : List Nat) (i : Nat) (h : s.length ≤ n)
    (hi : i < n) : (padLeftOnes n s).getD i 1 = dimFromRight s (n - 1 - i) := by
  rw [padLeftOnes_getD n s i h hi]
  unfold dimFromRight
  by_cases h1 : i < n - s.length
  · have h2 : ¬ (n - 1 - i < s.length) := by omega
    rw [if_pos h1, if_neg h2]
  · have h2 : n - 1 - i < s.length := by omega
    have h3 : s.length - 1 - (n - 1 - i) = i - (n - s.length) := by omega
    rw [if_neg h1, if_pos h2, h3]

theorem dimFromRight_of_le (s : List Nat) (k : Nat) (h : s.length ≤ k) : dimFromRight s k = 1 := by
  unfold dimFromRight
  rw [if_neg (by omega)]

theorem shape_ext (r s : List Nat) (hl : r.length = s.length)
    (h : ∀ k, dimFromRight r k = dimFromRight s k) : r = s := by
  apply list_eq_of_getD 0 r s hl
  intro j hj
  have hk := h (r.length - 1 - j)
  unfold dimFromRight at hk
  have h1 : r.length - 1 - j < r.length := by omega
  have h2 : r.length - 1 - j < s.length := by omega
  have h3 : r.length - 1 - (r.length - 1 - j) = j := by omega
  have h4 : s.length - 1 - (r.length - 1 - j) = j := by omega
  rw [if_pos h1, if_pos h2, h3, h4] at hk
  exact hk

theorem broadcast_ok_of_agree (a b : List Nat)
    (h : ∀ k, dimsAgree (dimFromRight a k) (dimFromRight b k)) :
    ∃ r, broadcast_shapes a b = .ok r ∧ r.length = max a.length b.length ∧
      ∀ k, dimFromRight r k = max (dimFromRight a k) (dimFromRight b k) := by
  have ha : a.length ≤ max a.length b.length := Nat.le_max_left _ _
  have hb : b.length ≤ max a.length b.length := Nat.le_max_right _ _
  have hunf : broadcast_shapes a b = broadcastLoop a b (max a.length b.length)
      (max a.length b.length) 0 (List.replicate (max a.length b.length) 0) := rfl
  generalize max a.length b.length = n at ha hb hunf ⊢
  obtain ⟨r, hr, hlen, hget⟩ := broadcastLoop_ok a b n ha hb n 0 (List.replicate n 0)
    (by omega) (by simp) (by
      intro j _ hj
      rw [padLeftOnes_getD_dimFromRight n a j ha hj, padLeftOnes_getD_dimFromRight n b j hb hj]
      exact h (n - 1 - j))
  refine ⟨r, by rw [hunf, hr], hlen, ?_⟩
  intro k
  by_cases hk : k < n
  · have hg := hget (n - 1 - k) (by omega)
    simp only [Nat.not_lt_zero, if_false] at hg
    rw [padLeftOnes_getD_dimFromRight n a _ ha (by omega),
      padLeftOnes_getD_dimFromRight n b _ hb (by omega)] at hg
    have h3 : n - 1 - (n - 1 - k) = k := by omega
    rw [h3] at hg
    rw [← hg]
    unfold dimFromRight
    rw [if_pos (by omega), hlen]
  · rw [dimFromRight_of_le r k (by omega), dimFromRight_of_le a k (by omega),
      dimFromRight_of_le b k (by omega)]
    rfl

theorem broadcast_error_of_disagree (a b : List Nat) (k : Nat)
    (h : ¬ dimsAgree (dimFromRight a k) (dimFromRight b k)) :
    broadcast_shapes a b = .error broadcastError := by
  have ha : a.length ≤ max a.length b.length := Nat.le_max_left _ _
  have hb : b.length ≤ max a.length b.length := Nat.le_max_right _ _
  have hunf : broadcast_shapes a b = broadcastLoop a b (max a.length b.length)
      (max a.length b.length) 0 (List.replicate (max a.length b.length) 0) := rfl
  have hk : k < max a.length b.length := by
    by_contra hc
    have h1 : dimFromRight a k = 1 := dimFromRight_of_le a k (by omega)
    exact h (Or.inr (Or.inl h1))
  generalize max a.length b.length = n at ha hb hunf hk
  rw [hunf]
  apply broadcastLoop_error a b n ha hb n 0 _ (by omega)
  refine ⟨n - 1 - k, Nat.zero_le _, by omega, ?_⟩
  rw [padLeftOnes_getD_dimFromRight n a _ ha (by omega),
    padLeftOnes_getD_dimFromRight n b _ hb (by omega)]
  have h3 : n - 1 - (n - 1 - k) = k := by omega
  rw [h3]
  exact h

/-- The result of `broadcast_shapes`, dimension by dimension from the right. -/
theorem broadcast_ok_iff (a b r : List Nat) :
    broadcast_shapes a b = .ok r ↔
      (∀ k, dimsAgree (dimFromRight a k) (dimFromRight b k)) ∧
      r.length = max a.length b.length ∧
      ∀ k, dimFromRight r k = max (dimFromRight a k) (dimFromRight b k) := by
  constructor
  · intro hr
    by_cases hall : ∀ k, dimsAgree (dimFromRight a k) (dimFromRight b k)
    · obtain ⟨r1, h1, h2, h3⟩ := broadcast_ok_of_agree a b hall
      rw [hr] at h1
      cases h1
      exact ⟨hall, h2, h3⟩
    · obtain ⟨k, hk⟩ := not_forall.mp hall
      rw [broadcast_error_of_disagree a b k hk] at hr
      cases hr
  · rintro ⟨hall, hlen, hdim⟩
    obtain ⟨r1, h1, h2, h3⟩ := broadcast_ok_of_agree a b hall
    rw [h1]
    congr 1
    apply shape_ext r1 r (by omega)
    intro k
    rw [h3 k, hdim k]

theorem broadcast_error_eq (a b : List Nat) (msg : String)
    (h : broadcast_shapes a b = .error msg) : msg = broadcastError :=
  broadcastLoop_error_msg a b _ _ _ _ msg h

/-- Two results of the resolver are equal as soon as they succeed with the same
shapes: every failure carries the same exception. -/
theorem resolve_eq_of_ok_iff (x y : Except String (List Nat))
    (hx : ∀ m, x = .error m → m = broadcastError) (hy : ∀ m, y = .error m → m = broadcastError)
    (h : ∀ r, x = .ok r ↔ y = .ok r) : x = y := by
  cases x with
  | ok r => exact ((h r).mp rfl).symm
  | error m =>
    cases y with
    | ok r => exact (h r).mpr rfl
    | error m2 => rw [hx m rfl, hy m2 rfl]

/-- C14. `broadcast_shapes` is commutative: for all shapes `a` and `b` the two
calls return the same value, that is, one fails exactly when the other fails
(with the same exception) and when they succeed they return the same shape. -/
theorem broadcast_shapes_comm (a b : List Nat) :
    broadcast_shapes a b = broadcast_shapes b a ∧
    ((∃ msg, broadcast_shapes a b = .error msg) ↔ ∃ msg, broadcast_shapes b a = .error msg) ∧
    (∀ r s, broadcast_shapes a b = .ok r → broadcast_shapes b a = .ok s → r = s) := by
  have hsymm : ∀ (a b r : List Nat), broadcast_shapes a b = .ok r → broadcast_shapes b a = .ok r := by
    intro a b r h
    obtain ⟨h1, h2, h3⟩ := (broadcast_ok_iff a b r).mp h
    refine (broadcast_ok_iff b a r).mpr ⟨?_, ?_, ?_⟩
    · intro k
      rcases h1 k with e | e | e
      · exact Or.inl e.symm
      · exact Or.inr (Or.inr e)
      · exact Or.inr (Or.inl e)
    · rw [h2, Nat.max_comm]
    · intro k
      rw [h3 k, Nat.max_comm]
  have heq : broadcast_shapes a b = broadcast_shapes b a :=
    resolve_eq_of_ok_iff _ _ (broadcast_error_eq a b) (broadcast_error_eq b a)
      (fun r => ⟨hsymm a b r, hsymm b a r⟩)
  refine ⟨heq, ?_, ?_⟩
  · rw [heq]
  · intro r s h1 h2
    rw [heq, h2] at h1
    cases h1
    rfl

/-! ## Associativity and order independence for positive dimensions -/

theorem dimFromRight_pos (s : List Nat) (hs : ∀ x ∈ s, 1 ≤ x) (k : Nat) :
    1 ≤ dimFromRight s k := by
  unfold dimFromRight
  by_cases hk : k < s.length
  · rw [if_pos hk]
    have h1 : s.length - 1 - k < s.length := by omega
    rw [List.getD_eq_getElem?_getD, List.getElem?_eq_getElem h1]
    exact hs _ (List.getElem_mem _)
  · rw [if_neg hk]

theorem pos_of_dimFromRight (s : List Nat) (h : ∀ k, 1 ≤ dimFromRight s k) :
    ∀ x ∈ s, 1 ≤ x := by
  intro x hx
  obtain ⟨j, hj, rfl⟩ := List.getElem_of_mem hx
  have hk := h (s.length - 1 - j)
  unfold dimFromRight at hk
  have h1 : s.length - 1 - j < s.length := by omega
  have h2 : s.length - 1 - (s.length - 1 - j) = j := by omega
  rw [if_pos h1, h2, List.getD_eq_getElem?_getD, List.getElem?_eq_getElem hj] at hk
  exact hk

theorem broadcast_pos (a b r : List Nat) (ha : ∀ x ∈ a, 1 ≤ x)
    (h : broadcast_shapes a b = .ok r) : ∀ x ∈ r, 1 ≤ x := by
  obtain ⟨_, _, h3⟩ := (broadcast_ok_iff a b r).mp h
  apply pos_of_dimFromRight
  intro k
  rw [h3 k]
  have := dimFromRight_pos a ha k
  omega

theorem resolveLeft_ok_iff (a b c r : List Nat) :
    resolveLeft a b c = .ok r ↔
      (∀ k, dimsAgree (dimFromRight a k) (dimFromRight b k) ∧
        dimsAgree (max (dimFromRight a k) (dimFromRight b k)) (dimFromRight c k)) ∧
      r.length = max (max a.length b.length) c.length ∧
      ∀ k, dimFromRight r k =
        max (max (dimFromRight a k) (dimFromRight b k)) (dimFromRight c k) := by
  unfold resolveLeft
  constructor
  · intro h
    cases hab : broadcast_shapes a b with
    | error m =>
      rw [hab] at h
      cases h
    | ok r1 =>
      rw [hab] at h
      obtain ⟨h1, h2, h3⟩ := (broadcast_ok_iff a b r1).mp hab
      obtain ⟨g1, g2, g3⟩ := (broadcast_ok_iff r1 c r).mp h
      refine ⟨fun k => ⟨h1 k, ?_⟩, by rw [g2, h2], fun k => by rw [g3 k, h3 k]⟩
      rw [← h3 k]
      exact g1 k
  · rintro ⟨h1, h2, h3⟩
    obtain ⟨r1, e1, l1, d1⟩ := broadcast_ok_of_agree a b (fun k => (h1 k).1)
    rw [e1]
    refine (broadcast_ok_iff r1 c r).mpr ⟨?_, by rw [h2, l1], fun k => by rw [h3 k, d1 k]⟩
    intro k
    rw [d1 k]
    exact (h1 k).2

theorem resolveRight_ok_iff (a b c r : List Nat) :
    resolveRight a b c = .ok r ↔
      (∀ k, dimsAgree (dimFromRight b k) (dimFromRight c k) ∧
        dimsAgree (dimFromRight a k) (max (dimFromRight b k) (dimFromRight c k))) ∧
      r.length = max a.length (max b.length c.length) ∧
      ∀ k, dimFromRight r k =
        max (dimFromRight a k) (max (dimFromRight b k) (dimFromRight c k)) := by
  unfold resolveRight
  constructor
  · intro h
    cases hbc : broadcast_shapes b c with
    | error m =>
      rw [hbc] at h
      cases h
    | ok r1 =>
      rw [hbc] at h
      obtain ⟨h1, h2, h3⟩ := (broadcast_ok_iff b c r1).mp hbc
      obtain ⟨g1, g2, g3⟩ := (broadcast_ok_iff a r1 r).mp h
      refine ⟨fun k => ⟨h1 k, ?_⟩, by rw [g2, h2], fun k => by rw [g3 k, h3 k]⟩
      rw [← h3 k]
      exact g1 k
  · rintro ⟨h1, h2, h3⟩
    obtain ⟨r1, e1, l1, d1⟩ := broadcast_ok_of_agree b c (fun k => (h1 k).1)
    rw [e1]
    refine (broadcast_ok_iff a r1 r).mpr ⟨?_, by rw [h2, l1], fun k => by rw [h3 k, d1 k]⟩
    intro k
    rw [d1 k]
    exact (h1 k).2

theorem resolveLeft_error_eq (a b c : List Nat) (m : String)
    (h : resolveLeft a b c = .error m) : m = broadcastError := by
  unfold resolveLeft at h
  cases hab : broadcast_shapes a b with
  | error e =>
    rw [hab] at h
    cases h
    exact broadcast_error_eq a b _ hab
  | ok r1 =>
    rw [hab] at h
    exact broadcast_error_eq r1 c _ h

theorem resolveRight_error_eq (a b c : List Nat) (m : String)
    (h : resolveRight a b c = .error m) : m = broadcastError := by
  unfold resolveRight at h
  cases hbc : broadcast_shapes b c with
  | error e =>
    rw [hbc] at h
    cases h
    exact broadcast_error_eq b c _ hbc
  | ok r1 =>
    rw [hbc] at h
    exact broadcast_error_eq a r1 _ h

/-- For positive dimensions the resolver is associative. -/
theorem resolve_assoc_pos (a b c : List Nat) (ha : ∀ x ∈ a, 1 ≤ x) (hb : ∀ x ∈ b, 1 ≤ x)
    (hc : ∀ x ∈ c, 1 ≤ x) : resolveLeft a b c = resolveRight a b c := by
  apply resolve_eq_of_ok_iff _ _ (resolveLeft_error_eq a b c) (resolveRight_error_eq a b c)
  intro r
  rw [resolveLeft_ok_iff, resolveRight_ok_iff]
  have hdim : ∀ k, 1 ≤ dimFromRight a k ∧ 1 ≤ dimFromRight b k ∧ 1 ≤ dimFromRight c k :=
    fun k => ⟨dimFromRight_pos a ha k, dimFromRight_pos b hb k, dimFromRight_pos c hc k⟩
  constructor
  · rintro ⟨h1, h2, h3⟩
    refine ⟨?_, by omega, ?_⟩
    · intro k
      obtain ⟨p1, p2, p3⟩ := hdim k
      obtain ⟨q1, q2⟩ := h1 k
      unfold dimsAgree at q1 q2 ⊢
      omega
    · intro k
      rw [h3 k]
      omega
  · rintro ⟨h1, h2, h3⟩
    refine ⟨?_, by omega, ?_⟩
    · intro k
      obtain ⟨p1, p2, p3⟩ := hdim k
      obtain ⟨q1, q2⟩ := h1 k
      unfold dimsAgree at q1 q2 ⊢
      omega
    · intro k
      rw [h3 k]
      omega

theorem broadcast_symm (a b : List Nat) : broadcast_shapes a b = broadcast_shapes b a := by
  have hsymm : ∀ (a b r : List Nat), broadcast_shapes a b = .ok r →
      broadcast_shapes b a = .ok r := by
    intro a b r h
    obtain ⟨h1, h2, h3⟩ := (broadcast_ok_iff a b r).mp h
    refine (broadcast_ok_iff b a r).mpr ⟨?_, by rw [h2, Nat.max_comm], ?_⟩
    · intro k
      have := h1 k
      unfold dimsAgree at this ⊢
      omega
    · intro k
      rw [h3 k, Nat.max_comm]
  exact resolve_eq_of_ok_iff _ _ (broadcast_error_eq a b) (broadcast_error_eq b a)
    (fun r => ⟨hsymm a b r, hsymm b a r⟩)

theorem foldShapes_two (s x y : List Nat) (l : List (List Nat)) :
    foldShapes s (x :: y :: l) =
      match resolveLeft s x y with
      | .ok u => foldShapes u l
      | .error m => .error m := by
  unfold resolveLeft
  simp only [foldShapes]
  cases broadcast_shapes s x with
  | error m => rfl
  | ok t => simp only

theorem resolveLeft_swap (s x y : List Nat) (hs : ∀ d ∈ s, 1 ≤ d) (hx : ∀ d ∈ x, 1 ≤ d)
    (hy : ∀ d ∈ y, 1 ≤ d) : resolveLeft s x y = resolveLeft s y x := by
  rw [resolve_assoc_pos s x y hs hx hy, resolve_assoc_pos s y x hs hy hx]
  unfold resolveRight
  rw [broadcast_symm x y]

/-- For positive dimensions the folded shape does not depend on the order of
the operand shapes. -/
theorem foldShapes_perm (l1 l2 : List (List Nat)) (hp : l1.Perm l2) :
    ∀ (s : List Nat), (∀ d ∈ s, 1 ≤ d) → (∀ b ∈ l1, ∀ d ∈ b, 1 ≤ d) →
      foldShapes s l1 = foldShapes s l2 := by
  induction hp with
  | nil =>
    intro s _ _
    rfl
  | cons x _ ih =>
    intro s hs hl
    simp only [foldShapes]
    cases hb : broadcast_shapes s x with
    | error m => rfl
    | ok t =>
      simp only
      exact ih t (broadcast_pos s x t hs hb) (fun b hb2 => hl b (List.mem_cons_of_mem _ hb2))
  | swap x y l =>
    intro s hs hl
    rw [foldShapes_two, foldShapes_two,
      resolveLeft_swap s y x hs (hl y (List.mem_cons_self _ _))
        (hl x (List.mem_cons_of_mem _ (List.mem_cons_self _ _)))]
  | trans h1 _ ih1 ih2 =>
    intro s hs hl
    rw [ih1 s hs hl]
    exact ih2 s hs (fun b hb => hl b (h1.mem_iff.mpr hb))

theorem foldTarget_eq_foldShapes {T : Type} (batch : List (BatchOp T)) :
    ∀ s, foldTarget s batch = foldShapes s (batch.map (fun op => op.tensor.shape)) := by
  induction batch with
  | nil =>
    intro s
    rfl
  | cons op rest ih =>
    intro s
    simp only [foldTarget, List.map_cons, foldShapes]
    cases broadcast_shapes s op.tensor.shape with
    | error m => rfl
    | ok t => exact ih t

/-- C13, as stated, fails on a zero-size dimension: `resolve(resolve([0],[1]),[2])`
is `[2]` while `resolve([0],resolve([1],[2]))` fails, and folding the operand
shapes `[1],[2]` from the core shape `[0]` gives `[2]` while the permutation
`[2],[1]` fails. -/
theorem resolve_not_assoc_zero_dim :
    resolveLeft [0] [1] [2] = .ok [2] ∧
    resolveRight [0] [1] [2] = .error broadcastError ∧
    foldShapes [0] [[1], [2]] = .ok [2] ∧
    foldShapes [0] [[2], [1]] = .error broadcastError ∧
    [[1], [2]].Perm [[2], [1]] :=
  ⟨rfl, rfl, rfl, rfl, List.Perm.swap [2] [1] []⟩

/-- C13, amended to dimensions of size at least 1: from a core shape with
positive dimensions, folding `broadcast_shapes` over the queue gives the same
value (the same target shape, or the same failure) for every permutation of a
queue whose operand shapes have positive dimensions; and `broadcast_shapes` is
associative on shapes with positive dimensions, `resolve(resolve(a,b),c)` and
`resolve(a,resolve(b,c))` being the same shape or both failing. -/
theorem resolve_order_independent_pos {T : Type} (s a b c : List Nat)
    (batch1 batch2 : List (BatchOp T))
    (hs : ∀ d ∈ s, 1 ≤ d) (hbatch : ∀ op ∈ batch1, ∀ d ∈ op.tensor.shape, 1 ≤ d)
    (hperm : batch1.Perm batch2)
    (ha : ∀ d ∈ a, 1 ≤ d) (hb : ∀ d ∈ b, 1 ≤ d) (hc : ∀ d ∈ c, 1 ≤ d) :
    foldTarget s batch1 = foldTarget s batch2 ∧
    resolveLeft a b c = resolveRight a b c := by
  refine ⟨?_, resolve_assoc_pos a b c ha hb hc⟩
  rw [foldTarget_eq_foldShapes, foldTarget_eq_foldShapes]
  apply foldShapes_perm _ _ (hperm.map _) s hs
  intro sh hsh
  obtain ⟨op, hop, rfl⟩ := List.mem_map.mp hsh
  exact hbatch op hop

/-- The instance of the amended C13 on the core shape `[1, 1]` with the operand
shapes `[3]` and `[2, 1]` in both orders, and on the shapes `[2, 1]`, `[1, 3]`, `[3]`. -/
theorem resolve_order_independent_pos_witness :
    (∀ d ∈ [1, 1], 1 ≤ d) ∧
    (∀ op ∈ [opShape3, opShape21], ∀ d ∈ op.tensor.shape, 1 ≤ d) ∧
    [opShape3, opShape21].Perm [opShape21, opShape3] ∧
    (∀ d ∈ [2, 1], 1 ≤ d) ∧ (∀ d ∈ [1, 3], 1 ≤ d) ∧ (∀ d ∈ [3], 1 ≤ d) ∧
    foldTarget [1, 1] [opShape3, opShape21] = foldTarget [1, 1] [opShape21, opShape3] ∧
    resolveLeft [2, 1] [1, 3] [3] = resolveRight [2, 1] [1, 3] [3] ∧
    foldTarget [1, 1] [opShape3, opShape21] = .ok [2, 3] :=
  have h1 : ∀ d ∈ [1, 1], 1 ≤ d := by decide
  have h2 : ∀ op ∈ [opShape3, opShape21], ∀ d ∈ op.tensor.shape, 1 ≤ d := by
    intro op ho
    simp only [List.mem_cons, List.mem_singleton, List.not_mem_nil, or_false] at ho
    rcases ho with h | h <;> subst h <;> decide
  have h3 : [opShape3, opShape21].Perm [opShape21, opShape3] := List.Perm.swap _ _ []
  have h4 : ∀ d ∈ [2, 1], 1 ≤ d := by decide
  have h5 : ∀ d ∈ [1, 3], 1 ≤ d := by decide
  have h6 : ∀ d ∈ [3], 1 ≤ d := by decide
  have h := resolve_order_independent_pos [1, 1] [2, 1] [1, 3] [3] [opShape3, opShape21]
    [opShape21, opShape3] h1 h2 h3 h4 h5 h6
  ⟨h1, h2, h3, h4, h5, h6, h.1, h.2, rfl⟩

/-! ## Chunk scheduling -/

theorem chunkSize_pos (hc N : Nat) : 0 < chunkSize hc N :=
  lt_of_lt_of_le (by decide) (Nat.le_max_right _ _)

/-- `(N + chunk - 1) / chunk` is the ceiling of `N / chunk`. -/
theorem ceil_div_le_iff (N chunk k : Nat) (hchunk : 0 < chunk) :
    (N + chunk - 1) / chunk ≤ k ↔ N ≤ k * chunk := by
  rw [← Nat.lt_succ_iff, Nat.div_lt_iff_lt_mul hchunk, Nat.succ_mul]
  omega

theorem claimedChunks_eq (N chunk : Nat) (hchunk : 0 < chunk) :
    ∀ (fuel k : Nat), N < k * chunk + fuel →
      claimedChunks N chunk fuel (k * chunk) =
        (List.range' k ((N + chunk - 1) / chunk - k)).map
          (fun j => (j * chunk, min ((j + 1) * chunk) N)) := by
  intro fuel
  induction fuel with
  | zero =>
    intro k hk
    have h1 : (N + chunk - 1) / chunk ≤ k := (ceil_div_le_iff N chunk k hchunk).mpr (by omega)
    have h2 : (N + chunk - 1) / chunk - k = 0 := by omega
    rw [h2]
    rfl
  | succ fuel ih =>
    intro k hk
    unfold claimedChunks
    by_cases hge : k * chunk ≥ N
    · have h1 : (N + chunk - 1) / chunk ≤ k := (ceil_div_le_iff N chunk k hchunk).mpr hge
      have h2 : (N + chunk - 1) / chunk - k = 0 := by omega
      simp only [hge, if_true, h2]
      rfl
    · have h1 : ¬ (N + chunk - 1) / chunk ≤ k := fun h =>
        hge ((ceil_div_le_iff N chunk k hchunk).mp h)
      have h2 : (N + chunk - 1) / chunk - k = ((N + chunk - 1) / chunk - (k + 1)) + 1 := by omega
      have h3 : k * chunk + chunk = (k + 1) * chunk := by rw [Nat.succ_mul]
      simp only [hge, if_false]
      rw [h2, List.range'_succ, List.map_cons, h3, ih (k + 1) (by rw [Nat.succ_mul]; omega)]

/-- C19. Chunk scheduling covers `[0, N)` exactly once, for every reported
hardware concurrency `hc` and every `N`: the thread count used is `hc`, or 4
when `hc = 0`; `chunk = max (N / h) 1024` is positive; the number of workers
`(N + chunk - 1) / chunk` is the ceiling of `N / chunk`; the ranges claimed
through the fetch-and-add cursor are exactly `[k * chunk, min ((k + 1) * chunk) N)`
for `k` below the number of workers, each non-empty and inside `[0, N)`; and
every index below `N` lies in exactly one of them. -/
theorem chunks_cover_once (hc N : Nat) :
    threadsHardware 0 = 4 ∧ (hc ≠ 0 → threadsHardware hc = hc) ∧
    chunkSize hc N = max (N / threadsHardware hc) 1024 ∧
    0 < chunkSize hc N ∧
    (N ≤ numThreads hc N * chunkSize hc N ∧
      ∀ k, N ≤ k * chunkSize hc N → numThreads hc N ≤ k) ∧
    claimedChunks N (chunkSize hc N) (N + 1) 0 =
      (List.range (numThreads hc N)).map
        (fun k => (k * chunkSize hc N, min ((k + 1) * chunkSize hc N) N)) ∧
    (∀ k, k < numThreads hc N →
      k * chunkSize hc N < min ((k + 1) * chunkSize hc N) N ∧
      min ((k + 1) * chunkSize hc N) N ≤ N) ∧
    (∀ i, i < N → ∃ k, k < numThreads hc N ∧
      (k * chunkSize hc N ≤ i ∧ i < min ((k + 1) * chunkSize hc N) N) ∧
      ∀ j, (j * chunkSize hc N ≤ i ∧ i < min ((j + 1) * chunkSize hc N) N) → j = k) := by
  have hpos := chunkSize_pos hc N
  have hceil : ∀ k, numThreads hc N ≤ k ↔ N ≤ k * chunkSize hc N :=
    fun k => ceil_div_le_iff N (chunkSize hc N) k hpos
  refine ⟨rfl, ?_, rfl, hpos, ⟨(hceil _).mp (Nat.le_refl _), fun k hk => (hceil k).mpr hk⟩,
    ?_, ?_, ?_⟩
  · intro h
    simp [threadsHardware, h]
  · have h := claimedChunks_eq N (chunkSize hc N) hpos (N + 1) 0 (by omega)
    rw [Nat.zero_mul] at h
    rw [h, List.range_eq_range']
    rfl
  · intro k hk
    have h1 : ¬ N ≤ k * chunkSize hc N := fun h => by
      have := (hceil k).mpr h
      omega
    have h2 : (k + 1) * chunkSize hc N = k * chunkSize hc N + chunkSize hc N := Nat.succ_mul _ _
    omega
  · intro i hi
    have hk1 : i / chunkSize hc N * chunkSize hc N ≤ i := Nat.div_mul_le_self i _
    have hk2 : i < (i / chunkSize hc N + 1) * chunkSize hc N := by
      rw [Nat.succ_mul]
      have := Nat.mod_lt i hpos
      have := Nat.div_add_mod i (chunkSize hc N)
      rw [Nat.mul_comm] at this
      omega
    refine ⟨i / chunkSize hc N, ?_, ⟨hk1, by omega⟩, ?_⟩
    · by_contra hc2
      have := (hceil (i / chunkSize hc N)).mp (by omega)
      omega
    · rintro j ⟨hj1, hj2⟩
      have hj3 : i < (j + 1) * chunkSize hc N := by omega
      have e1 : j ≤ i / chunkSize hc N := (Nat.le_div_iff_mul_le hpos).mpr hj1
      have e2 : i / chunkSize hc N < j + 1 := (Nat.div_lt_iff_lt_mul hpos).mpr hj3
      omega

/-! ## Worker-count and schedule independence of the scalar path -/

/-- The worker processes exactly the chunks claimed through the cursor, in claim order. -/
theorem worker_runs_claimed {T : Type} (neon : Option (T → T → T)) (batch : List (BatchOp T))
    (N chunk : Nat) (hchunk : 0 < chunk) :
    ∀ (fuel next_idx : Nat) (data d : List T), N < next_idx + fuel → 0 < fuel →
      runChunks neon batch (claimedChunks N chunk fuel next_idx) data = .done d →
      ∃ nx, worker neon batch N chunk fuel (next_idx, data) = .done (nx, d) ∧ N ≤ nx := by
  intro fuel
  induction fuel with
  | zero =>
    intro next_idx data d _ hpos _
    omega
  | succ fuel ih =>
    intro next_idx data d hfuel _ hrun
    unfold claimedChunks at hrun
    unfold worker
    by_cases hge : next_idx ≥ N
    · simp only [hge, if_true, runChunks] at hrun ⊢
      injection hrun with hrun
      exact ⟨next_idx + chunk, by rw [hrun], by omega⟩
    · simp only [hge, if_false, runChunks] at hrun ⊢
      cases hp : processChunk neon batch next_idx (min (next_idx + chunk) N) data with
      | done d1 =>
        rw [hp] at hrun
        simp only at hrun ⊢
        exact ih (next_idx + chunk) d1 d (by omega) (by omega) hrun
      | threw m s =>
        rw [hp] at hrun
        cases hrun
      | undefined_read =>
        rw [hp] at hrun
        cases hrun
      | out_of_fuel =>
        rw [hp] at hrun
        cases hrun

theorem claimedChunks_range (N chunk : Nat) (hchunk : 0 < chunk) :
    claimedChunks N chunk (N + 1) 0 =
      (List.range ((N + chunk - 1) / chunk)).map
        (fun j => (j * chunk, min ((j + 1) * chunk) N)) := by
  have h := claimedChunks_eq N chunk hchunk (N + 1) 0 (by omega)
  rw [Nat.zero_mul] at h
  rw [h, List.range_eq_range']
  rfl

/-- The claimed chunks are inside `[0, N)`, pairwise disjoint, and cover it. -/
theorem claimedChunks_partition (N chunk : Nat) (hchunk : 0 < chunk) :
    (∀ c ∈ claimedChunks N chunk (N + 1) 0, c.1 ≤ c.2 ∧ c.2 ≤ N) ∧
    (claimedChunks N chunk (N + 1) 0).Pairwise (fun c c2 => c.2 ≤ c2.1 ∨ c2.2 ≤ c.1) ∧
    (∀ i, i < N → ∃ c ∈ claimedChunks N chunk (N + 1) 0, c.1 ≤ i ∧ i < c.2) := by
  rw [claimedChunks_range N chunk hchunk]
  refine ⟨?_, ?_, ?_⟩
  · intro c hc
    obtain ⟨k, hk, rfl⟩ := List.mem_map.mp hc
    have hk2 : k < (N + chunk - 1) / chunk := List.mem_range.mp hk
    have h1 : ¬ N ≤ k * chunk := fun h => by
      have := (ceil_div_le_iff N chunk k hchunk).mpr h
      omega
    have h2 : (k + 1) * chunk = k * chunk + chunk := Nat.succ_mul _ _
    simp only
    omega
  · rw [List.pairwise_map]
    apply List.Pairwise.imp _ (List.pairwise_lt_range _)
    intro j k hjk
    left
    have h1 : (j + 1) * chunk ≤ k * chunk := Nat.mul_le_mul_right _ hjk
    simp only
    omega
  · intro i hi
    have hk1 : i / chunk * chunk ≤ i := Nat.div_mul_le_self i _
    have hk2 : i < (i / chunk + 1) * chunk := by
      rw [Nat.succ_mul]
      have := Nat.mod_lt i hchunk
      have := Nat.div_add_mod i chunk
      rw [Nat.mul_comm] at this
      omega
    refine ⟨(i / chunk * chunk, min ((i / chunk + 1) * chunk) N), ?_, hk1, by simp only; omega⟩
    apply List.mem_map.mpr
    refine ⟨i / chunk, List.mem_range.mpr ?_, rfl⟩
    by_contra hc2
    have := (ceil_div_le_iff N chunk (i / chunk) hchunk).mp (by omega)
    omega

/-- Disjoint chunks processed in any order on the scalar path: a cell inside one
of the chunks holds the fold of the queued functions, any other cell is untouched. -/
theorem runChunks_scalar_cells {T : Type} [Inhabited T] (batch : List (BatchOp T)) (N : Nat)
    (hops : ∀ op ∈ batch, N ≤ op.tensor.data.length) :
    ∀ (order : List (Nat × Nat)) (data : List T), data.length = N →
      (∀ c ∈ order, c.1 ≤ c.2 ∧ c.2 ≤ N) →
      order.Pairwise (fun c c2 => c.2 ≤ c2.1 ∨ c2.2 ≤ c.1) →
      ∃ d, runChunks none batch order data = .done d ∧ d.length = N ∧
        ∀ j, d.getD j default =
          if ∃ c ∈ order, c.1 ≤ j ∧ j < c.2 then cellFold batch j (data.getD j default)
          else data.getD j default := by
  intro order
  induction order with
  | nil =>
    intro data hlen _ _
    refine ⟨data, rfl, hlen, ?_⟩
    intro j
    simp
  | cons c rest ih =>
    intro data hlen hin hpw
    obtain ⟨hc1, hc2⟩ := hin c (List.mem_cons_self _ _)
    obtain ⟨d1, e1, l1, g1⟩ := processChunk_scalar batch c.1 c.2 data hc1 (by omega)
      (fun op ho => by have := hops op ho; omega)
    obtain ⟨hpc, hprest⟩ := List.pairwise_cons.mp hpw
    obtain ⟨d2, e2, l2, g2⟩ := ih d1 (by omega)
      (fun c2 h2 => hin c2 (List.mem_cons_of_mem _ h2)) hprest
    refine ⟨d2, ?_, l2, ?_⟩
    · simp only [runChunks, e1, e2]
    · intro j
      rw [g2 j, g1 j]
      by_cases hr : ∃ c2 ∈ rest, c2.1 ≤ j ∧ j < c2.2
      · obtain ⟨c2, hc2m, h3, h4⟩ := hr
        have hdis := hpc c2 hc2m
        have hnot : ¬ (c.1 ≤ j ∧ j < c.2) := by omega
        have hex : ∃ c3 ∈ c :: rest, c3.1 ≤ j ∧ j < c3.2 :=
          ⟨c2, List.mem_cons_of_mem _ hc2m, h3, h4⟩
        rw [if_pos ⟨c2, hc2m, h3, h4⟩, if_neg hnot, if_pos hex]
      · rw [if_neg hr]
        by_cases hj : c.1 ≤ j ∧ j < c.2
        · have hex : ∃ c3 ∈ c :: rest, c3.1 ≤ j ∧ j < c3.2 :=
            ⟨c, List.mem_cons_self _ _, hj⟩
          rw [if_pos hj, if_pos hex]
        · have hex : ¬ ∃ c3 ∈ c :: rest, c3.1 ≤ j ∧ j < c3.2 := by
            rintro ⟨c3, hm, h3⟩
            rcases List.mem_cons.mp hm with h | h
            · subst h
              exact hj h3
            · exact hr ⟨c3, h, h3⟩
          rw [if_neg hj, if_neg hex]

theorem scalarReference_cons {T : Type} (op : BatchOp T) (rest : List (BatchOp T))
    (data : List T) :
    scalarReference (op :: rest) data =
      scalarReference rest (List.zipWith op.func data op.tensor.data) := rfl

/-- The scalar reference, cell by cell. -/
theorem scalarReference_getD {T : Type} [Inhabited T] :
    ∀ (batch : List (BatchOp T)) (data : List T),
      (∀ op ∈ batch, op.tensor.data.length = data.length) →
      (scalarReference batch data).length = data.length ∧
      ∀ j, j < data.length →
        (scalarReference batch data).getD j default = cellFold batch j (data.getD j default) := by
  intro batch
  induction batch with
  | nil =>
    intro data _
    exact ⟨rfl, fun j _ => rfl⟩
  | cons op rest ih =>
    intro data hops
    have h1 := hops op (List.mem_cons_self _ _)
    have hz : (List.zipWith op.func data op.tensor.data).length = data.length := by
      simp [h1]
    obtain ⟨l, g⟩ := ih (List.zipWith op.func data op.tensor.data)
      (fun o ho => by rw [hz]; exact hops o (List.mem_cons_of_mem _ ho))
    rw [scalarReference_cons]
    refine ⟨by rw [l, hz], ?_⟩
    intro j hj
    rw [g j (by omega), cellFold_cons]
    congr 1
    have hj2 : j < op.tensor.data.length := by omega
    simp [List.getD_eq_getElem?_getD, List.getElem?_zipWith, List.getElem?_eq_getElem hj,
      List.getElem?_eq_getElem hj2]

/-- On the scalar path the compute pass equals the single-threaded scalar
reference for every hardware concurrency and every order in which the claimed
chunks are processed. -/
theorem scalar_pass_any_order {T : Type} [Inhabited T] (hc : Nat) (batch : List (BatchOp T))
    (data : List T) (order : List (Nat × Nat))
    (hperm : order.Perm (claimedChunks data.length (chunkSize hc data.length)
      (data.length + 1) 0))
    (hops : ∀ op ∈ batch, op.tensor.data.length = data.length) :
    runChunks none batch order data = .done (scalarReference batch data) := by
  obtain ⟨hin, hpw, hcov⟩ := claimedChunks_partition data.length (chunkSize hc data.length)
    (chunkSize_pos hc data.length)
  have hpw2 : order.Pairwise (fun c c2 => c.2 ≤ c2.1 ∨ c2.2 ≤ c.1) := by
    refine (hperm.pairwise_iff ?_).mpr hpw
    intro c c2 h
    omega
  obtain ⟨d, e, l, g⟩ := runChunks_scalar_cells batch data.length
    (fun op ho => by rw [hops op ho]) order data rfl
    (fun c hcm => hin c (hperm.mem_iff.mp hcm)) hpw2
  obtain ⟨l2, g2⟩ := scalarReference_getD batch data hops
  rw [e]
  congr 1
  apply list_eq_of_getD default d _ (by omega)
  intro j hj
  obtain ⟨c, hcm, h1, h2⟩ := hcov j (by omega)
  rw [g j, if_pos ⟨c, hperm.mem_iff.mpr hcm, h1, h2⟩, g2 j (by omega)]

/-! ## The thread pool -/

theorem PoolState.init_inv (n : Nat) : PoolState.Inv n PoolState.init := by
  refine ⟨?_, ?_, ⟨[], rfl, fun _ => rfl⟩, ?_⟩
  · intro i hi
    cases hi
  · intro h
    exact absurd rfl h
  · intro h
    exact absurd rfl h

/-- A worker that returns does so from a state with `stop` set and an empty queue. -/
theorem PoolState.worker_exit_guard (n : Nat) (s s1 : PoolState) (i : Nat)
    (h : s.step n (.worker i) = some s1) (hex : s1.exited ≠ s.exited) :
    s.stop = true ∧ s.tasks = [] ∧ s1 = { s with exited := i :: s.exited } ∧ i < n ∧
      i ∉ s.exited := by
  unfold PoolState.step at h
  simp only at h
  by_cases h1 : i < n ∧ i ∉ s.exited
  · rw [if_pos h1] at h
    by_cases h2 : s.stop = true ∨ s.tasks ≠ []
    · rw [if_pos h2] at h
      by_cases h3 : s.stop = true ∧ s.tasks = []
      · rw [if_pos h3] at h
        injection h with h
        exact ⟨h3.1, h3.2, h.symm, h1.1, h1.2⟩
      · rw [if_neg h3] at h
        cases ht : s.tasks with
        | nil =>
          rw [ht] at h
          cases h
        | cons t rest =>
          rw [ht] at h
          injection h with h
          subst h
          exact absurd rfl hex
    · rw [if_neg h2] at h
      cases h
  · rw [if_neg h1] at h
    cases h

theorem PoolState.step_inv (n : Nat) (s s1 : PoolState) (e : PoolEvent)
    (hinv : PoolState.Inv n s) (h : s.step n e = some s1) : PoolState.Inv n s1 := by
  obtain ⟨i1, i2, ⟨late, i3, i3b⟩, i4⟩ := hinv
  cases e with
  | enqueue task =>
    simp only [PoolState.step] at h
    injection h with h
    subst h
    refine ⟨i1, i2, ?_, ?_⟩
    · by_cases hs : s.stop = true
      · refine ⟨late ++ [task], ?_, ?_⟩
        · simp only [hs, if_true]
          rw [← List.append_assoc, i3, List.append_assoc]
        · intro hf
          simp only at hf
          rw [hs] at hf
          cases hf
      · have hs2 : s.stop = false := by simpa using hs
        have hl := i3b hs2
        subst hl
        refine ⟨[], ?_, fun _ => rfl⟩
        simp only [hs2, Bool.false_eq_true, if_false, List.append_nil]
        rw [← List.append_assoc, i3, List.append_nil]
    · intro hne
      have hs := i2 hne
      simp only [hs, if_true]
      exact i4 hne
  | shutdown =>
    simp only [PoolState.step] at h
    injection h with h
    subst h
    refine ⟨i1, fun _ => rfl, ⟨late, i3, ?_⟩, i4⟩
    intro hf
    cases hf
  | worker i =>
    by_cases hex : s1.exited = s.exited
    · unfold PoolState.step at h
      by_cases h1 : i < n ∧ i ∉ s.exited
      · simp only [h1, and_self, not_false_eq_true, if_true] at h
        by_cases h2 : s.stop = true ∨ s.tasks ≠ []
        · simp only [h2, if_true] at h
          by_cases h3 : s.stop = true ∧ s.tasks = []
          · simp only [h3, and_self, if_true] at h
            injection h with h
            subst h
            simp at hex
          · simp only [h3, if_false] at h
            cases ht : s.tasks with
            | nil =>
              rw [ht] at h
              cases h
            | cons t rest =>
              rw [ht] at h
              injection h with h
              subst h
              rw [ht] at i3
              refine ⟨i1, i2, ⟨late, ?_, i3b⟩, ?_⟩
              · simp only
                rw [List.append_assoc]
                exact i3
              · intro hne
                obtain ⟨u, hu⟩ := i4 hne
                exact ⟨u ++ [t], by simp only; rw [← List.append_assoc, hu]⟩
        · simp only [h2, if_false] at h
          cases h
      · simp only [h1, if_false] at h
        cases h
    · obtain ⟨g1, g2, g3, g4, _⟩ := PoolState.worker_exit_guard n s s1 i h hex
      subst g3
      refine ⟨?_, ?_, ⟨late, i3, i3b⟩, ?_⟩
      · intro j hj
        rcases List.mem_cons.mp hj with hj | hj
        · rw [hj]
          exact g4
        · exact i1 j hj
      · intro _
        exact g1
      · intro _
        rw [g2, List.append_nil] at i3
        exact ⟨late, i3.symm⟩

theorem PoolState.run_inv (n : Nat) :
    ∀ (events : List PoolEvent) (s s1 : PoolState), PoolState.Inv n s →
      PoolState.run n events s = some s1 → PoolState.Inv n s1 := by
  intro events
  induction events with
  | nil =>
    intro s s1 hinv h
    simp only [PoolState.run] at h
    injection h with h
    rw [← h]
    exact hinv
  | cons e rest ih =>
    intro s s1 hinv h
    simp only [PoolState.run] at h
    cases hs : s.step n e with
    | none =>
      rw [hs] at h
      cases h
    | some s2 =>
      rw [hs] at h
      exact ih s2 s1 (PoolState.step_inv n s s2 e hinv hs) h

/-- C20. In every state the pool reaches from construction by enqueues, worker
passes and shutdown: a worker pass that makes the worker return starts from a
state with the stop flag set and the task queue empty; and as soon as some
worker has returned (in particular when all workers have), the stop flag is set
and every task enqueued before shutdown has been popped by a worker. -/
theorem pool_drains_before_exit (n : Nat) (events : List PoolEvent) (s : PoolState)
    (hrun : PoolState.run n events PoolState.init = some s) :
    (∀ i s1, s.step n (.worker i) = some s1 → s1.exited ≠ s.exited →
      s.stop = true ∧ s.tasks = []) ∧
    (s.exited ≠ [] → s.stop = true ∧ s.early <+: s.popped ∧ ∀ t ∈ s.early, t ∈ s.popped) ∧
    (0 < n → (∀ i, i < n → i ∈ s.exited) → ∀ t ∈ s.early, t ∈ s.popped) := by
  obtain ⟨_, i2, _, i4⟩ := PoolState.run_inv n events PoolState.init s (PoolState.init_inv n) hrun
  have hmem : s.exited ≠ [] → ∀ t ∈ s.early, t ∈ s.popped := by
    intro hne t ht
    obtain ⟨u, hu⟩ := i4 hne
    rw [← hu]
    exact List.mem_append_left _ ht
  refine ⟨?_, ?_, ?_⟩
  · intro i s1 h hex
    obtain ⟨g1, g2, _⟩ := PoolState.worker_exit_guard n s s1 i h hex
    exact ⟨g1, g2⟩
  · intro hne
    exact ⟨i2 hne, i4 hne, hmem hne⟩
  · intro hn hall
    apply hmem
    intro he
    have := hall 0 hn
    rw [he] at this
    cases this

/-- The instance of C20 on a pool of two workers: two tasks, shutdown, both
workers drain the queue and return. -/
theorem pool_drains_before_exit_witness :
    PoolState.run 2 poolTrace PoolState.init = some poolFinal ∧
    poolFinal.exited ≠ [] ∧
    (poolFinal.stop = true ∧ poolFinal.early <+: poolFinal.popped ∧
      ∀ t ∈ poolFinal.early, t ∈ poolFinal.popped) :=
  have h : PoolState.run 2 poolTrace PoolState.init = some poolFinal := by decide
  have hne : poolFinal.exited ≠ [] := by decide
  ⟨h, hne, (pool_drains_before_exit 2 poolTrace poolFinal h).2.1 hne⟩

/-! ## Execution on in-range inputs -/

theorem scalarLoop_length {T : Type} (f : T → T → T) (operand : List T) :
    ∀ (n i : Nat) (data : List T), i + n ≤ data.length → i + n ≤ operand.length →
      ∃ d, scalarLoop f operand n i data = .done d ∧ d.length = data.length := by
  intro n
  induction n with
  | zero =>
    intro i data _ _
    exact ⟨data, rfl, rfl⟩
  | succ n ih =>
    intro i data hd ho
    have hi1 : i < data.length := by omega
    have hi2 : i < operand.length := by omega
    unfold scalarLoop
    rw [List.getElem?_eq_getElem hi1, List.getElem?_eq_getElem hi2]
    simp only
    obtain ⟨d, hd1, hd2⟩ := ih (i + 1) (data.set i (f data[i] operand[i]))
      (by simp; omega) (by omega)
    exact ⟨d, hd1, by simpa using hd2⟩

theorem load4_some {T : Type} (v : List T) (i : Nat) (h : i + 4 ≤ v.length) :
    ∃ r, load4 v i = some r := by
  unfold load4
  rw [List.getElem?_eq_getElem (by omega : i < v.length),
    List.getElem?_eq_getElem (by omega : i + 1 < v.length),
    List.getElem?_eq_getElem (by omega : i + 2 < v.length),
    List.getElem?_eq_getElem (by omega : i + 3 < v.length)]
  exact ⟨_, rfl⟩

theorem store4_length {T : Type} (v : List T) (i : Nat) (r : T × T × T × T) :
    (store4 v i r).length = v.length := by
  simp [store4]

theorem simdLoop_length {T : Type} (vop : T → T → T) (operand : List T) :
    ∀ (n i : Nat) (data : List T), i + 4 * n ≤ data.length → i + 4 * n ≤ operand.length →
      ∃ d, simdLoop vop operand n i data = .done d ∧ d.length = data.length := by
  intro n
  induction n with
  | zero =>
    intro i data _ _
    exact ⟨data, rfl, rfl⟩
  | succ n ih =>
    intro i data hd ho
    obtain ⟨a, ha⟩ := load4_some data i (by omega)
    obtain ⟨b, hb⟩ := load4_some operand i (by omega)
    unfold simdLoop
    rw [ha, hb]
    simp only
    obtain ⟨d, hd1, hd2⟩ := ih (i + 4) (store4 data i
      (vop a.1 b.1, vop a.2.1 b.2.1, vop a.2.2.1 b.2.2.1, vop a.2.2.2 b.2.2.2))
      (by rw [store4_length]; omega) (by omega)
    exact ⟨d, hd1, by rw [hd2, store4_length]⟩

theorem applyOp_length {T : Type} (neon : Option (T → T → T)) (op : BatchOp T)
    (start stop : Nat) (data : List T) (h1 : start ≤ stop) (h2 : stop ≤ data.length)
    (h3 : stop ≤ op.tensor.data.length) :
    ∃ d, applyOp neon op start stop data = .done d ∧ d.length = data.length := by
  unfold applyOp
  cases neon with
  | none =>
    simp only
    exact scalarLoop_length op.func op.tensor.data (stop - start) start data (by omega) (by omega)
  | some vop =>
    simp only
    have hq : 4 * ((stop - start) / 4) ≤ stop - start := Nat.mul_div_le _ _
    obtain ⟨d1, e1, l1⟩ := simdLoop_length vop op.tensor.data ((stop - start) / 4) start data
      (by omega) (by omega)
    rw [e1]
    simp only
    obtain ⟨d2, e2, l2⟩ := scalarLoop_length op.func op.tensor.data
      (stop - (start + 4 * ((stop - start) / 4))) (start + 4 * ((stop - start) / 4)) d1
      (by omega) (by omega)
    exact ⟨d2, e2, by omega⟩

theorem processChunk_length {T : Type} (neon : Option (T → T → T)) :
    ∀ (batch : List (BatchOp T)) (start stop : Nat) (data : List T),
      start ≤ stop → stop ≤ data.length → (∀ op ∈ batch, stop ≤ op.tensor.data.length) →
      ∃ d, processChunk neon batch start stop data = .done d ∧ d.length = data.length := by
  intro batch
  induction batch with
  | nil =>
    intro start stop data _ _ _
    exact ⟨data, rfl, rfl⟩
  | cons op rest ih =>
    intro start stop data h1 h2 h3
    obtain ⟨d1, e1, l1⟩ := applyOp_length neon op start stop data h1 h2
      (h3 op (List.mem_cons_self _ _))
    obtain ⟨d2, e2, l2⟩ := ih start stop d1 h1 (by omega)
      (fun o ho => h3 o (List.mem_cons_of_mem _ ho))
    refine ⟨d2, ?_, by omega⟩
    simp only [processChunk, e1, e2]

theorem worker_length {T : Type} (neon : Option (T → T → T)) (batch : List (BatchOp T))
    (N chunk : Nat) (hchunk : 0 < chunk) (hops : ∀ op ∈ batch, N ≤ op.tensor.data.length) :
    ∀ (fuel next_idx : Nat) (data : List T), data.length = N → N < next_idx + fuel →
      0 < fuel →
      ∃ nx d, worker neon batch N chunk fuel (next_idx, data) = .done (nx, d) ∧ N ≤ nx ∧
        d.length = N := by
  intro fuel
  induction fuel with
  | zero =>
    intro next_idx data _ _ hpos
    omega
  | succ fuel ih =>
    intro next_idx data hlen hfuel _
    unfold worker
    by_cases hge : next_idx ≥ N
    · simp only [hge, if_true]
      exact ⟨next_idx + chunk, data, rfl, by omega, hlen⟩
    · simp only [hge, if_false]
      obtain ⟨d1, e1, l1⟩ := processChunk_length neon batch next_idx
        (min (next_idx + chunk) N) data (by omega) (by omega)
        (fun op ho => by have := hops op ho; omega)
      rw [e1]
      simp only
      exact ih (next_idx + chunk) d1 (by omega) (by omega) (by omega)

theorem runThreads_length {T : Type} (neon : Option (T → T → T)) (batch : List (BatchOp T))
    (N chunk : Nat) (hchunk : 0 < chunk) (hops : ∀ op ∈ batch, N ≤ op.tensor.data.length) :
    ∀ (t next_idx : Nat) (data : List T), data.length = N →
      ∃ nx d, runThreads neon batch N chunk t (next_idx, data) = .done (nx, d) ∧
        d.length = N := by
  intro t
  induction t with
  | zero =>
    intro next_idx data hlen
    exact ⟨next_idx, data, rfl, hlen⟩
  | succ t ih =>
    intro next_idx data hlen
    obtain ⟨nx, d1, e1, _, l1⟩ :=
      worker_length neon batch N chunk hchunk hops (N + 1) next_idx data hlen (by omega) (by omega)
    obtain ⟨nx2, d2, e2, l2⟩ := ih nx d1 l1
    refine ⟨nx2, d2, ?_, l2⟩
    simp only [runThreads, e1, e2]

/-- Mixed-radix bound: coordinates below the dimensions, weighted by the
row-major strides, give an index below the element count. -/
theorem mixedRadix_lt :
    ∀ (shape : List Nat) (x : Nat → Nat), (∀ d, d < shape.length → x d < shape.getD d 0) →
      ((List.range shape.length).map (fun d => x d * (shape.drop (d + 1)).prod)).sum <
        shape.prod := by
  intro shape
  induction shape with
  | nil =>
    intro x _
    simp
  | cons c rest ih =>
    intro x hx
    have h0 : x 0 < c := by
      have := hx 0 (by simp)
      simpa using this
    have hrest : (List.map (fun d => x (d + 1) * (List.drop (d + 1) rest).prod)
        (List.range rest.length)).sum < rest.prod := ih (fun d => x (d + 1)) (by
      intro d hd
      have := hx (d + 1) (by simp; omega)
      simpa using this)
    rw [List.length_cons, List.range_succ_eq_map, List.map_cons, List.map_map, List.sum_cons,
      List.prod_cons]
    have hsum : (List.map ((fun d => x d * (List.drop (d + 1) (c :: rest)).prod) ∘ Nat.succ)
        (List.range rest.length)).sum =
        (List.map (fun d => x (d + 1) * (List.drop (d + 1) rest).prod)
          (List.range rest.length)).sum := by
      congr 1
    rw [hsum]
    have h1 : (List.drop (0 + 1) (c :: rest)).prod = rest.prod := by simp
    rw [h1]
    have h2 : (x 0 + 1) * rest.prod ≤ c * rest.prod := Nat.mul_le_mul_right _ h0
    rw [Nat.succ_mul] at h2
    omega

theorem rowMajorStrides_getD (shape : List Nat) (d : Nat) (hd : d < shape.length) :
    (rowMajorStrides shape).getD d 0 = (shape.drop (d + 1)).prod := by
  simp [rowMajorStrides, List.getD_eq_getElem?_getD, hd]

theorem rowMajorStrides_length (shape : List Nat) :
    (rowMajorStrides shape).length = shape.length := by
  simp [rowMajorStrides]

theorem getD_eq_dimFromRight (s : List Nat) (d : Nat) (hd : d < s.length) :
    s.getD d 0 = dimFromRight s (s.length - 1 - d) := by
  unfold dimFromRight
  have h1 : s.length - 1 - d < s.length := by omega
  have h2 : s.length - 1 - (s.length - 1 - d) = d := by omega
  rw [if_pos h1, h2]

/-- A shape with positive dimensions that is resolved with another shape keeps
each of its dimensions or has a 1 there, and the result has positive dimensions. -/
theorem broadcast_keeps_dims (s b r : List Nat) (hs : ∀ d ∈ s, 1 ≤ d)
    (h : broadcast_shapes s b = .ok r) :
    s.length ≤ r.length ∧
    (∀ k, dimFromRight s k = 1 ∨ dimFromRight s k = dimFromRight r k) ∧
    (∀ d ∈ r, 1 ≤ d) := by
  obtain ⟨h1, h2, h3⟩ := (broadcast_ok_iff s b r).mp h
  refine ⟨by omega, ?_, broadcast_pos s b r hs h⟩
  intro k
  have hp := dimFromRight_pos s hs k
  have ha := h1 k
  have hm := h3 k
  unfold dimsAgree at ha
  omega

theorem foldShapes_keeps_dims :
    ∀ (l : List (List Nat)) (s t : List Nat), (∀ d ∈ s, 1 ≤ d) → foldShapes s l = .ok t →
      s.length ≤ t.length ∧
      (∀ k, dimFromRight s k = 1 ∨ dimFromRight s k = dimFromRight t k) ∧
      (∀ d ∈ t, 1 ≤ d) := by
  intro l
  induction l with
  | nil =>
    intro s t hs h
    simp only [foldShapes] at h
    injection h with h
    subst h
    exact ⟨Nat.le_refl _, fun k => Or.inr rfl, hs⟩
  | cons b rest ih =>
    intro s t hs h
    simp only [foldShapes] at h
    cases hb : broadcast_shapes s b with
    | error m =>
      rw [hb] at h
      cases h
    | ok r =>
      rw [hb] at h
      obtain ⟨a1, a2, a3⟩ := broadcast_keeps_dims s b r hs hb
      obtain ⟨b1, b2, b3⟩ := ih r t a3 h
      refine ⟨by omega, ?_, b3⟩
      intro k
      rcases a2 k with e | e
      · exact Or.inl e
      · rcases b2 k with e2 | e2
        · exact Or.inl (by rw [e, e2])
        · exact Or.inr (by rw [e, e2])

/-- The source index stays inside a buffer of `product(shape)` cells when the
source has row-major strides and positive dimensions, each equal to 1 or to the
right-aligned target dimension. -/
theorem sourceIndex_lt (cshape target : List Nat) (idx : Nat)
    (hpos : ∀ d ∈ cshape, 1 ≤ d) (hrank : cshape.length ≤ target.length)
    (hdims : ∀ k, dimFromRight cshape k = 1 ∨ dimFromRight cshape k = dimFromRight target k) :
    sourceIndex cshape (rowMajorStrides cshape) target idx < cshape.prod := by
  have hsum : sourceIndex cshape (rowMajorStrides cshape) target idx =
      ((List.range cshape.length).map (fun d =>
        (if cshape.getD d 0 = 1 then 0
          else rowMajorCoord target idx (d + (target.length - cshape.length))) *
          (cshape.drop (d + 1)).prod)).sum := by
    unfold sourceIndex
    congr 1
    apply List.map_congr_left
    intro d hd
    rw [rowMajorStrides_getD cshape d (List.mem_range.mp hd)]
  rw [hsum]
  apply mixedRadix_lt cshape
  intro d hd
  have hc : 1 ≤ cshape.getD d 0 := by
    rw [List.getD_eq_getElem?_getD, List.getElem?_eq_getElem hd]
    exact hpos _ (List.getElem_mem _)
  by_cases h1 : cshape.getD d 0 = 1
  · rw [if_pos h1, h1]
    exact Nat.one_pos
  · rw [if_neg h1]
    have e1 := getD_eq_dimFromRight cshape d hd
    have hdt : d + (target.length - cshape.length) < target.length := by omega
    have e2 := getD_eq_dimFromRight target (d + (target.length - cshape.length)) hdt
    have e3 : target.length - 1 - (d + (target.length - cshape.length)) =
        cshape.length - 1 - d := by omega
    rw [e3] at e2
    have hk := hdims (cshape.length - 1 - d)
    rw [← e1, ← e2] at hk
    rcases hk with hk | hk
    · exact absurd hk h1
    · unfold rowMajorCoord
      rw [hk]
      apply Nat.mod_lt
      omega

theorem materialize_done {T : Type} [Inhabited T] (core : Pv T) (target : List Nat)
    (hrank : core.shape.length ≤ target.length)
    (hstr : core.shape.length ≤ core.strides.length)
    (hin : ∀ idx, idx < target.prod →
      sourceIndex core.shape core.strides target idx < core.data.length) :
    ∃ nd, materialize core target =
        some (Pv.computeStrides { data := nd, shape := target, strides := core.strides }) ∧
      nd.length = target.prod := by
  have hsize : target.foldl (fun acc s => acc * s) 1 = target.prod := by
    rw [foldl_mul_eq_prod, Nat.one_mul]
  obtain ⟨c1, n1, e1, l1, _⟩ := fillLoop_getD core target hrank hstr target.prod 0
    (List.replicate target.length 0) (List.replicate target.prod default)
    (by simp) (by simp) (fun i _ h2 => hin i (by omega))
  refine ⟨n1, ?_, by simpa using l1⟩
  simp only [materialize, hsize, e1]

/-- The compute pass of `execute` on a core of `N` cells whose operands all hold
at least `N` cells returns with `N` cells. -/
theorem computePass_done {T : Type} [Inhabited T] (neon : Option (T → T → T)) (hc : Nat)
    (eng : LazyEval T) (core1 : Pv T)
    (hops : ∀ op ∈ eng.batch, core1.data.length ≤ op.tensor.data.length) :
    ∃ nx d, runThreads neon eng.batch core1.data.length
        (max (core1.data.length / (if hc = 0 then 4 else hc)) 1024)
        ((core1.data.length + max (core1.data.length / (if hc = 0 then 4 else hc)) 1024 - 1) /
          max (core1.data.length / (if hc = 0 then 4 else hc)) 1024) (0, core1.data) =
        .done (nx, d) ∧ d.length = core1.data.length :=
  runThreads_length neon eng.batch core1.data.length _
    (lt_of_lt_of_le (by decide) (Nat.le_max_right _ _)) hops _ 0 core1.data rfl

/-- On a core that satisfies the storage invariant and has positive dimensions,
with a queue whose shapes fold to `target` and whose operands hold at least
`product(target)` cells, `execute` returns, clears the queue, and leaves a core
of shape `target` with `product(target)` cells and row-major strides. -/
theorem execute_installs_target {T : Type} [Inhabited T] (neon : Option (T → T → T))
    (hc : Nat) (eng : LazyEval T) (core : Pv T) (target : List Nat)
    (hinv : core.Invariant) (hpos : ∀ d ∈ core.shape, 1 ≤ d) (hne : eng.batch ≠ [])
    (hfold : foldTarget core.shape eng.batch = .ok target)
    (hops : ∀ op ∈ eng.batch, target.prod ≤ op.tensor.data.length) :
    ∃ data1, LazyEval.execute neon hc eng core =
        .done ({ data := data1, shape := target, strides := rowMajorStrides target },
          { batch := [] }) ∧
      data1.length = target.prod := by
  obtain ⟨hlen, hslen, hstr⟩ := hinv
  have hempty : eng.batch.isEmpty = false := by
    cases hb : eng.batch with
    | nil => exact absurd hb hne
    | cons _ _ => rfl
  by_cases hsh : core.shape = target
  · have hN : core.data.length = target.prod := by rw [hlen, hsh]
    obtain ⟨nx, d, e, l⟩ := computePass_done neon hc eng core
      (fun op ho => by rw [hN]; exact hops op ho)
    refine ⟨d, ?_, by omega⟩
    have hif : (if core.shape ≠ target then materialize core target else some core) =
        some core := by
      rw [if_neg (by simpa using hsh)]
    simp only [LazyEval.execute, hempty, hfold, hif, e]
    simp only [Bool.false_eq_true, if_false]
    rw [← hsh, ← hstr]
  · rw [foldTarget_eq_foldShapes] at hfold
    obtain ⟨hrank, hdims, _⟩ := foldShapes_keeps_dims _ core.shape target hpos hfold
    rw [← foldTarget_eq_foldShapes] at hfold
    obtain ⟨nd, hm, hnd⟩ := materialize_done core target hrank (by omega) (by
      intro idx _
      rw [hstr, hlen]
      exact sourceIndex_lt core.shape target idx hpos hrank hdims)
    have hstr1 : (Pv.computeStrides { data := nd, shape := target, strides := core.strides }).strides
        = rowMajorStrides target := by
      apply computeStrides_rowMajor
      apply vresize_last_one
      simp only
      by_cases hlt : core.strides.length < target.length
      · exact Or.inl hlt
      · right
        have heq : target.length = core.shape.length := by omega
        rw [heq, hstr]
        by_cases h0 : core.shape.length = 0
        · rw [List.getD_eq_getElem?_getD, List.getElem?_eq_none (by
            rw [rowMajorStrides_length]; omega)]
          rfl
        · have hl : core.shape.length - 1 < core.shape.length := by omega
          have e0 : (rowMajorStrides core.shape).getD (core.shape.length - 1) 1 =
              (rowMajorStrides core.shape).getD (core.shape.length - 1) 0 := by
            have hl2 : core.shape.length - 1 < (rowMajorStrides core.shape).length := by
              rw [rowMajorStrides_length]; exact hl
            simp [List.getD_eq_getElem?_getD, List.getElem?_eq_getElem hl2]
          rw [e0, rowMajorStrides_getD core.shape _ hl]
          have hd : core.shape.drop (core.shape.length - 1 + 1) = [] :=
            List.drop_eq_nil_of_le (by omega)
          rw [hd]
          rfl
    have hc1 : Pv.computeStrides { data := nd, shape := target, strides := core.strides } =
        { data := nd, shape := target, strides := rowMajorStrides target } := by
      rw [← hstr1]
      rfl
    have hif : (if core.shape ≠ target then materialize core target else some core) =
        some { data := nd, shape := target, strides := rowMajorStrides target } := by
      rw [if_pos hsh, hm, hc1]
    obtain ⟨nx, d, e, l⟩ := computePass_done neon hc eng
      { data := nd, shape := target, strides := rowMajorStrides target }
      (fun op ho => by
        show nd.length ≤ _
        rw [hnd]
        exact hops op ho)
    refine ⟨d, ?_, by rw [l]; exact hnd⟩
    simp only [LazyEval.execute, hempty, hfold, hif, e]
    simp only [Bool.false_eq_true, if_false]

/-! ## Failing inputs of the invariant and of worker-count independence -/

/-- C11, evaluated on two failing inputs.  The core `[1, 2, 3]` of shape `[3]`
satisfies the storage invariant and folds with an operand of shape `[2, 1]` to
`[2, 3]`, but `execute` ends in an out-of-range read of the operand (it is
indexed by the flat target index), so no final state is reached.  The core
`Pv([0])` satisfies the invariant and folds with an operand of shape `[1]` to
`[1]`, and `execute` ends in an out-of-range read of the empty core buffer. -/
theorem execute_invariant_out_of_range :
    core123.Invariant ∧ (∀ d ∈ core123.shape, 1 ≤ d) ∧ queueColumn.batch ≠ [] ∧
    foldTarget core123.shape queueColumn.batch = .ok [2, 3] ∧
    materialize core123 [2, 3] =
      some { data := [1, 2, 3, 1, 2, 3], shape := [2, 3], strides := [3, 1] } ∧
    LazyEval.execute none 8 queueColumn core123 = .undefined_read ∧
    coreEmptyDim.Invariant ∧ queueUnit.batch ≠ [] ∧
    foldTarget coreEmptyDim.shape queueUnit.batch = .ok [1] ∧
    materialize coreEmptyDim [1] = none ∧
    LazyEval.execute none 8 queueUnit coreEmptyDim = .undefined_read := by
  refine ⟨⟨rfl, rfl, rfl⟩, by decide, ?_, rfl, rfl, rfl, ⟨rfl, rfl, rfl⟩, ?_, rfl, rfl, rfl⟩
  · simp [queueColumn, LazyEval.add]
  · simp [queueUnit, LazyEval.add]

theorem chunkSize_small (hc N : Nat) (hN : N ≤ 1024) : chunkSize hc N = 1024 := by
  unfold chunkSize
  have : N / threadsHardware hc ≤ N := Nat.div_le_self _ _
  omega

/-- C12, evaluated on a failing input: for 32-bit `int`, the queue `mul [2, 2, 2, 2]`
on the core `[1, 2, 3, 4]` gives `[3, 4, 5, 6]` for every hardware concurrency
`hc` (so for every worker count in 1..64), while the single-threaded scalar
reference gives `[2, 4, 6, 8]`. -/
theorem execute_int_workers_differ_from_reference (hc : Nat) :
    LazyEval.execute (some vaddq_s32) hc queueMul core1234 =
      .done ({ core1234 with data := [3, 4, 5, 6] }, { batch := [] }) ∧
    scalarReference queueMul.batch core1234.data = [2, 4, 6, 8] ∧
    claimedChunks 4 (chunkSize hc 4) 5 0 = [(0, 4)] ∧
    runChunks (some vaddq_s32) queueMul.batch [(0, 4)] core1234.data = .done [3, 4, 5, 6] := by
  have hchunk : chunkSize hc 4 = 1024 := chunkSize_small hc 4 (by decide)
  have hchunk2 : max (4 / (if hc = 0 then 4 else hc)) 1024 = 1024 := hchunk
  refine ⟨?_, rfl, by rw [hchunk]; rfl, rfl⟩
  have hfold : foldTarget core1234.shape queueMul.batch = .ok core1234.shape := rfl
  have hlen : core1234.data.length = 4 := rfl
  have hif : (if core1234.shape ≠ core1234.shape then materialize core1234 core1234.shape
      else some core1234) = some core1234 := rfl
  have hempty : queueMul.batch.isEmpty = false := rfl
  simp only [LazyEval.execute, hempty, hfold, hif, hlen, hchunk2]
  rfl

/-! ## Row-major decomposition and `flattenIndex` -/

/-- With a core that satisfies the storage invariant and has positive
dimensions, and a queue whose shapes fold to `target`, the source index the
materialization computes for any flat index lies inside the core buffer. -/
theorem materialize_reads_in_range {T : Type} (core : Pv T) (batch : List (BatchOp T))
    (target : List Nat) (idx : Nat) (coord : List Nat)
    (hinv : core.Invariant) (hpos : ∀ d ∈ core.shape, 1 ≤ d)
    (hfold : foldTarget core.shape batch = .ok target)
    (hcoord : coord.length = target.length) :
    ∃ si, srcIndexLoop core.shape core.strides (target.length - core.shape.length)
        (zeroLoop core.shape (target.length - core.shape.length) core.shape.length 0
          (decomposeLoop target target.length idx coord)) core.shape.length 0 0 = some si ∧
      si < core.data.length := by
  obtain ⟨hlen, hslen, hstr⟩ := hinv
  rw [foldTarget_eq_foldShapes] at hfold
  obtain ⟨hrank, hdims, _⟩ := foldShapes_keeps_dims _ core.shape target hpos hfold
  refine ⟨sourceIndex core.shape core.strides target idx,
    srcIndex_eq_sourceIndex core.shape core.strides target idx coord hrank (by omega) hcoord, ?_⟩
  rw [hstr, hlen]
  exact sourceIndex_lt core.shape target idx hpos hrank hdims

/-- C21, evaluated on a failing input: the core `Pv([0])` satisfies the storage
invariant, the queue with one operand of shape `[1]` folds to the target `[1]`,
different from the core shape, and for the target flat index 0 (below
`product(target) = 1`) the materialization computes the source index 0, which is
not below the length 0 of the core buffer; the block ends in an out-of-range read. -/
theorem materialize_reads_empty_core :
    coreEmptyDim.Invariant ∧ queueUnit.batch ≠ [] ∧
    foldTarget coreEmptyDim.shape queueUnit.batch = .ok [1] ∧
    coreEmptyDim.shape ≠ [1] ∧ 0 < [1].prod ∧
    srcIndexLoop coreEmptyDim.shape coreEmptyDim.strides ([1].length - coreEmptyDim.shape.length)
      (zeroLoop coreEmptyDim.shape ([1].length - coreEmptyDim.shape.length)
        coreEmptyDim.shape.length 0 (decomposeLoop [1] [1].length 0 [0]))
      coreEmptyDim.shape.length 0 0 = some 0 ∧
    coreEmptyDim.data.length = 0 ∧
    coreEmptyDim.data[0]? = none ∧
    materialize coreEmptyDim [1] = none := by
  refine ⟨⟨rfl, rfl, rfl⟩, ?_, rfl, by decide, by decide, rfl, rfl, rfl, rfl⟩
  simp [queueUnit, LazyEval.add]

end FastTensor
